import Mathlib

/-!
# Continuous audio recorder (`valid_mic.c`): container header, sample packing,
# file sequence recovery and space reclamation

A shallow embedding of the recorder's core logic.  Machine integers are
natural numbers or integers with explicit reduction modulo `2 ^ 32`; C arrays
are lists of bytes; the storage engine (FatFs) is an environment whose answers
are parameters of the embedded functions.
-/

namespace ValidMic

/-! ## Configuration constants (the `#define` lines) -/

/-- Duration of each file in seconds (`REC_DURATION`). -/
def REC_DURATION : Nat := 60

/-- Free-space floor in megabytes (`MIN_FREE_SPACE_MB`). -/
def MIN_FREE_SPACE_MB : Nat := 50

/-- Numbering limit used by the scan (`MAX_FILES_SCAN`). -/
def MAX_FILES_SCAN : Nat := 99999

/-- Samples per second (`SAMPLE_RATE`). -/
def SAMPLE_RATE : Nat := 24000

/-- Channel count (`CHANNELS`). -/
def CHANNELS : Nat := 1

/-- Bits per persisted sample (`BIT_DEPTH`). -/
def BIT_DEPTH : Nat := 24

/-- Bytes per persisted sample (`BYTES_PER_SAMPLE`, that is `BIT_DEPTH / 8`). -/
def BYTES_PER_SAMPLE : Nat := BIT_DEPTH / 8

/-- Samples per capture buffer (`BUFFER_SIZE`). -/
def BUFFER_SIZE : Nat := 4096

/-- Reduction of a value to an unsigned 32-bit machine word. -/
def u32 (x : Nat) : Nat := x % 2 ^ 32

/-- Reduction of a value to an unsigned 16-bit machine word. -/
def u16 (x : Nat) : Nat := x % 2 ^ 16

/-- Unsigned 32-bit subtraction, wrapping below zero. -/
def u32_sub (a b : Nat) : Nat := (u32 a + 2 ^ 32 - u32 b) % 2 ^ 32

/-! ## Byte-level helpers -/

/-- The ASCII bytes of a string literal, as copied by `memcpy`. -/
def ascii (s : String) : List Nat := s.data.map Char.toNat

/-- Little-endian memory image of an unsigned field that is `k` bytes wide. -/
def le_bytes : Nat → Nat → List Nat
  | 0, _ => []
  | k + 1, v => v % 256 :: le_bytes k (v / 256)

/-- Reading a little-endian unsigned field back from its bytes. -/
def le_decode : List Nat → Nat
  | [] => 0
  | b :: bs => b + 256 * le_decode bs

/-- The bytes of `buf` at offsets `off .. off + len - 1`. -/
def slice (buf : List Nat) (off len : Nat) : List Nat := (buf.drop off).take len

/-! ## The container header (`WavHeader`, `write_wav_header`) -/

/-- The packed header record; field order and widths as in the `typedef`. -/
structure WavHeader where
  riff : List Nat
  total_size : Nat
  wave : List Nat
  fmt : List Nat
  fmt_size : Nat
  audio_format : Nat
  channels : Nat
  sample_rate : Nat
  byte_rate : Nat
  block_align : Nat
  bits_per_sample : Nat
  data : List Nat
  data_size : Nat
deriving DecidableEq, Repr

/-- The value of `sizeof(WavHeader)` for the packed layout:
four 4-byte tags, five 32-bit fields and four 16-bit fields. -/
def sizeof_WavHeader : Nat := 4 * 4 + 5 * 4 + 4 * 2

/-- Memory image of the packed record on the little-endian target: the fields
in declaration order with no padding. -/
def WavHeader.image (h : WavHeader) : List Nat :=
  h.riff.take 4 ++ le_bytes 4 h.total_size ++ h.wave.take 4 ++ h.fmt.take 4
    ++ le_bytes 4 h.fmt_size ++ le_bytes 2 h.audio_format ++ le_bytes 2 h.channels
    ++ le_bytes 4 h.sample_rate ++ le_bytes 4 h.byte_rate ++ le_bytes 2 h.block_align
    ++ le_bytes 2 h.bits_per_sample ++ h.data.take 4 ++ le_bytes 4 h.data_size

/-- The record that `write_wav_header` fills in for a given `audio_data_size`
(the assignments of lines 84-101, in unsigned machine arithmetic). -/
def wav_header (audio_data_size : Nat) : WavHeader :=
  let block_align := u16 (CHANNELS * BYTES_PER_SAMPLE)
  { riff := ascii "RIFF"
    wave := ascii "WAVE"
    fmt := ascii "fmt "
    data := ascii "data"
    fmt_size := 16
    audio_format := 1
    channels := u16 CHANNELS
    sample_rate := u32 SAMPLE_RATE
    bits_per_sample := u16 BIT_DEPTH
    block_align := block_align
    byte_rate := u32 (SAMPLE_RATE * block_align)
    data_size := u32 audio_data_size
    total_size := u32_sub (u32 (u32 audio_data_size + sizeof_WavHeader)) 8 }

/-- An open file object: the bytes stored so far and the read/write pointer. -/
structure FIL where
  data : List Nat
  fptr : Nat
deriving DecidableEq, Repr

/-- Storage-engine write: `btw` bytes of `buff` are offered at the file
pointer and the engine reports `bw` of them as written.  The reported bytes
(at most `btw`) replace or extend the file contents at the pointer, which
moves past them. -/
def f_write (fil : FIL) (buff : List Nat) (btw bw : Nat) : FIL :=
  let chunk := buff.take (min btw bw)
  { data := fil.data.take fil.fptr ++ chunk ++ fil.data.drop (fil.fptr + chunk.length)
    fptr := fil.fptr + chunk.length }

/-- Storage-engine seek to an absolute offset within the file. -/
def f_lseek (fil : FIL) (ofs : Nat) : FIL := { fil with fptr := ofs }

/-- Embedding of `write_wav_header`: fill the record and hand its image to the
storage engine, whose reported count `bw` is discarded by the code. -/
def write_wav_header (fil : FIL) (audio_data_size : Nat) (bw : Nat) : FIL :=
  f_write fil (wav_header audio_data_size).image sizeof_WavHeader bw

/-! ## Sample packing (the loop of lines 298-303) -/

/-- The byte `(s >> k) & 0xFF` of a signed sample, as stored into a `uint8_t`:
arithmetic right shift, then the mask. -/
def pack_byte (s : Int) (k : Nat) : Nat := (Int.land (s >>> k) 0xFF).toNat

/-- One iteration of the packing loop: the three stores for sample `i`. -/
def pack_iter (src : List Int) (stage_buffer : List Nat) (i : Nat) : List Nat :=
  let s := src.getD i 0
  ((stage_buffer.set (i * 3 + 0) (pack_byte s 0)).set (i * 3 + 1) (pack_byte s 8)).set
    (i * 3 + 2) (pack_byte s 16)

/-- The packing loop `for (i = 0; i < BUFFER_SIZE; i++)` over the staging
region, whose previous contents are the second argument. -/
def pack (src : List Int) (stage_buffer : List Nat) : List Nat :=
  (List.range BUFFER_SIZE).foldl (pack_iter src) stage_buffer

/-! ## Recording session (the body of the main loop, lines 280-315) -/

/-- A buffer handed over by the capture side: its samples and the byte count
that the storage engine reports for the write of its packed form. -/
structure Drain where
  samples : List Int
  bw : Nat

/-- The streaming target `SAMPLE_RATE * 3 * REC_DURATION`. -/
def max_file_bytes : Nat := u32 (SAMPLE_RATE * 3 * REC_DURATION)

/-- State carried through the streaming loop. -/
structure Session where
  fil : FIL
  stage_buffer : List Nat
  current_file_bytes : Nat
  writes : Nat
deriving DecidableEq, Repr

/-- The capture loop `while (current_file_bytes < max_file_bytes)`.  Each
element of the list is what one pass of the loop finds: `none` when neither
buffer is flagged full, `some d` when a buffer is drained.  When the list runs
out while the loop is still running there is no result. -/
def streaming : List (Option Drain) → Session → Option Session
  | [], st => if st.current_file_bytes < max_file_bytes then none else some st
  | ev :: evs, st =>
    if st.current_file_bytes < max_file_bytes then
      match ev with
      | none => streaming evs st
      | some d =>
        let stage := pack d.samples st.stage_buffer
        let fil := f_write st.fil stage (BUFFER_SIZE * 3) d.bw
        streaming evs
          { fil := fil
            stage_buffer := stage
            current_file_bytes := u32 (st.current_file_bytes + d.bw)
            writes := st.writes + 1 }
    else some st

/-- One recording: the file is created empty, the placeholder header is
written (the engine reports `bw0` for it), the capture loop runs over `evs`,
then the file is rewound and the header rewritten with the byte counter (the
engine reports `bw1`); closing and syncing leave the contents as they are. -/
def recording_session (stage_buffer : List Nat) (bw0 : Nat) (evs : List (Option Drain))
    (bw1 : Nat) : Option Session :=
  let fil : FIL := { data := [], fptr := 0 }
  let fil := write_wav_header fil 0 bw0
  match streaming evs
      { fil := fil, stage_buffer := stage_buffer, current_file_bytes := 0, writes := 0 } with
  | none => none
  | some st =>
    let fil := f_lseek st.fil 0
    let fil := write_wav_header fil st.current_file_bytes bw1
    some { st with fil := fil }

/-- The byte counts reported for the sample writes of a list of loop passes. -/
def reported : List (Option Drain) → List Nat
  | [] => []
  | none :: evs => reported evs
  | some d :: evs => d.bw :: reported evs

/-- The sample bytes that the storage engine takes from the passes of a
capture loop: for each drained buffer the first `bw` bytes (at most the
12,288 offered) of the packed staging region, in order. -/
def written : List (Option Drain) → List Nat → List Nat
  | [], _ => []
  | none :: evs, stage_buffer => written evs stage_buffer
  | some d :: evs, stage_buffer =>
    (pack d.samples stage_buffer).take (min (BUFFER_SIZE * 3) d.bw)
      ++ written evs (pack d.samples stage_buffer)

/-! ## File names and the storage engine's result codes -/

/-- Result codes of the storage engine (`FRESULT`). -/
inductive FRESULT where
  | FR_OK | FR_DISK_ERR | FR_INT_ERR | FR_NOT_READY | FR_NO_FILE | FR_NO_PATH
  | FR_INVALID_NAME | FR_DENIED | FR_EXIST | FR_INVALID_OBJECT | FR_WRITE_PROTECTED
  | FR_INVALID_DRIVE | FR_NOT_ENABLED | FR_NO_FILESYSTEM | FR_MKFS_ABORTED | FR_TIMEOUT
  | FR_LOCKED | FR_NOT_ENOUGH_CORE | FR_TOO_MANY_OPEN_FILES | FR_INVALID_PARAMETER
deriving DecidableEq, Repr

open FRESULT

/-- Reading an unsigned 32-bit word as the signed `int` that `%d` prints. -/
def to_int32 (u : Nat) : Int := if u32 u < 2 ^ 31 then (u32 u : Int) else (u32 u : Int) - 2 ^ 32

/-- Left padding with the character `0` up to width `w`. -/
def zero_pad (w : Nat) (ds : List Char) : List Char := List.replicate (w - ds.length) '0' ++ ds

/-- The conversion `%05d`: decimal digits, zero-padded to a minimum field
width of five, the sign counting towards the width. -/
def fmt_05d (x : Int) : List Char :=
  if x < 0 then '-' :: zero_pad 4 (Nat.toDigits 10 x.natAbs)
  else zero_pad 5 (Nat.toDigits 10 x.toNat)

/-- The result of `sprintf(fname, "REC_%05d.WAV", idx)`. -/
def rec_name (idx : Int) : String := String.mk ("REC_".data ++ fmt_05d idx ++ ".WAV".data)

/-! ## File sequence recovery (`scan_files`) -/

/-- The two file counters `current_file_idx` and `oldest_file_idx`. -/
structure SeqIndex where
  current_file_idx : Nat
  oldest_file_idx : Nat
deriving DecidableEq, Repr

/-- A counting loop `for (i = start; i < start + fuel; i++)` that leaves at the
first `i` satisfying `p`; `none` when it runs to its bound. -/
def find_from (p : Nat → Bool) : Nat → Nat → Option Nat
  | 0, _ => none
  | fuel + 1, i => if p i then some i else find_from p fuel (i + 1)

/-- The code from the label `full_scan` on (lines 136-172): look for the first
existing file below `MAX_FILES_SCAN`, then for the first missing one from
there. -/
def full_scan (f_stat : String → FRESULT) (st : SeqIndex) : SeqIndex :=
  match find_from (fun i => decide (f_stat (rec_name i) = FR_OK)) MAX_FILES_SCAN 0 with
  | none => { st with current_file_idx := 0, oldest_file_idx := 0 }
  | some i =>
    let st := { st with oldest_file_idx := i }
    match find_from (fun i => decide (f_stat (rec_name i) = FR_NO_FILE))
        (MAX_FILES_SCAN - st.oldest_file_idx) st.oldest_file_idx with
    | some i => { st with current_file_idx := i }
    | none => { st with current_file_idx := 0 }

/-- Embedding of `scan_files`; `f_stat` answers the probe of a file name. -/
def scan_files (f_stat : String → FRESULT) (st : SeqIndex) : SeqIndex :=
  if f_stat "REC_00000.WAV" = FR_NO_FILE then
    let st := { st with current_file_idx := 0, oldest_file_idx := 0 }
    match find_from (fun i => decide (f_stat (rec_name i) = FR_OK)) 100 0 with
    | some _ => full_scan f_stat st
    | none => st
  else full_scan f_stat st

/-- The file set holding recordings exactly at the listed indices. -/
def files_at (idxs : List Nat) : String → FRESULT :=
  fun name => if name ∈ idxs.map (fun i => rec_name i) then FR_OK else FR_NO_FILE

/-! ## Main-loop index advance (line 321) -/

/-- The increment `current_file_idx++` on the unsigned 32-bit counter. -/
def next_file_idx (current_file_idx : Nat) : Nat := u32 (current_file_idx + 1)

/-- The name under which the main loop creates the recording (line 277). -/
def recording_name (current_file_idx : Nat) : String := rec_name (to_int32 current_file_idx)

/-! ## Space reclamation (`manage_space`) -/

/-- The storage engine as seen by one call of `manage_space`: the answer of the
`k`-th free-space query (result code and free cluster count; the count reaches
`fre_clust` only with `FR_OK`), the result of the `k`-th deletion attempt, and
the cluster size `csize` of the mounted volume in sectors. -/
structure Engine where
  getfree : Nat → FRESULT × Nat
  unlink : Nat → FRESULT
  csize : Nat

/-- State of `manage_space`, with a record of the engine calls made so far. -/
structure Reclaim where
  oldest_file_idx : Nat
  fre_clust : Nat
  free_mb : Nat
  queries : Nat
  unlinks : List (String × FRESULT)
deriving DecidableEq, Repr

/-- The expression `(fre_clust * pfs->csize) / 2048` in 32-bit arithmetic. -/
def free_mb_of (fre_clust csize : Nat) : Nat := u32 (fre_clust * csize) / 2048

/-- A call of `f_getfree` followed by the recomputation of `free_mb`. -/
def requery (E : Engine) (st : Reclaim) : Reclaim :=
  let ans := E.getfree st.queries
  let fre_clust := if ans.1 = FR_OK then u32 ans.2 else st.fre_clust
  { st with fre_clust := fre_clust, free_mb := free_mb_of fre_clust E.csize,
            queries := st.queries + 1 }

/-- The loop `while (free_mb < MIN_FREE_SPACE_MB)`; `fuel` bounds the number of
passes, and there is no result when it is used up with the loop still
running. -/
def reclaim_loop (E : Engine) : Nat → Reclaim → Option Reclaim
  | 0, st => if st.free_mb < MIN_FREE_SPACE_MB then none else some st
  | fuel + 1, st =>
    if st.free_mb < MIN_FREE_SPACE_MB then
      let old_fname := rec_name (to_int32 st.oldest_file_idx)
      let fr := E.unlink st.unlinks.length
      let st := { st with unlinks := st.unlinks ++ [(old_fname, fr)] }
      if fr = FR_OK then
        reclaim_loop E fuel (requery E { st with oldest_file_idx := u32 (st.oldest_file_idx + 1) })
      else if fr = FR_NO_FILE then
        reclaim_loop E fuel (requery E { st with oldest_file_idx := u32 (st.oldest_file_idx + 1) })
      else some st
    else some st

/-- Embedding of `manage_space`: the first query, the early return when it
fails, then the loop. -/
def manage_space (E : Engine) (fuel : Nat) (oldest_file_idx : Nat) : Option Reclaim :=
  let ans := E.getfree 0
  let st : Reclaim :=
    { oldest_file_idx := oldest_file_idx, fre_clust := 0, free_mb := 0, queries := 1,
      unlinks := [] }
  if ans.1 ≠ FR_OK then some st
  else
    let fre_clust := u32 ans.2
    reclaim_loop E fuel { st with fre_clust := fre_clust, free_mb := free_mb_of fre_clust E.csize }

/-- The names for which a deletion succeeded, in order. -/
def deleted (st : Reclaim) : List String :=
  (st.unlinks.filter (fun u => decide (u.2 = FR_OK))).map (fun u => u.1)

/-! ## Reclamation bookkeeping and sample storage engines -/

/-- A deletion result after which the loop goes on: success or missing file. -/
def advances (fr : FRESULT) : Bool := decide (fr = FR_OK) || decide (fr = FR_NO_FILE)

/-- The number of deletion attempts that met a missing file. -/
def holes (st : Reclaim) : Nat :=
  (st.unlinks.filter (fun u => decide (u.2 = FR_NO_FILE))).length

/-- An engine that reports no free space at first and 50 MB from the second
query on, and answers every deletion with `FR_NO_FILE`. -/
def engine_one_hole : Engine :=
  { getfree := fun k => if k = 0 then (FR_OK, 0) else (FR_OK, 102400)
    unlink := fun _ => FR_NO_FILE
    csize := 1 }

/-- An engine that always reports no free space and fails every deletion with
`FR_DISK_ERR`. -/
def engine_disk_error : Engine :=
  { getfree := fun _ => (FR_OK, 0), unlink := fun _ => FR_DISK_ERR, csize := 1 }

/-- An engine that always reports no free space and answers every deletion
with `FR_NO_FILE`: a full volume that holds no recording. -/
def engine_all_holes : Engine :=
  { getfree := fun _ => (FR_OK, 0), unlink := fun _ => FR_NO_FILE, csize := 1 }

/-- The engine met when reclaiming over the files 2, 3, 5, 7 from index 2: space
stays short for the first four queries; the third attempt (index 4) finds no
file, the others succeed. -/
def engine_over_gap : Engine :=
  { getfree := fun k => if k < 4 then (FR_OK, 0) else (FR_OK, 102400)
    unlink := fun k => if k = 2 then FR_NO_FILE else FR_OK
    csize := 1 }

/-- An engine whose first free-space query succeeds with no free space and
whose later queries all fail with `FR_DISK_ERR`; deletions succeed except the
third, which fails with `FR_DENIED`. -/
def engine_stale : Engine :=
  { getfree := fun k => if k = 0 then (FR_OK, 0) else (FR_DISK_ERR, 999999)
    unlink := fun k => if k = 2 then FR_DENIED else FR_OK
    csize := 1 }

/-! ## The ordering of the two counters -/

/-- The ordering that the specification asks of the two counters. -/
def seq_ordered (s : SeqIndex) : Prop :=
  s.oldest_file_idx ≤ s.current_file_idx ∨ (s.oldest_file_idx = 0 ∧ s.current_file_idx = 0)

instance (s : SeqIndex) : Decidable (seq_ordered s) :=
  inferInstanceAs (Decidable
    (s.oldest_file_idx ≤ s.current_file_idx ∨ (s.oldest_file_idx = 0 ∧ s.current_file_idx = 0)))

/-- The counter pairs reached from a start-up scan by reclamation calls and
main-loop index advances, the storage engine answering in any way. -/
inductive Reachable : SeqIndex → Prop
  | scan (f_stat : String → FRESULT) (st : SeqIndex) : Reachable (scan_files f_stat st)
  | reclaim (s : SeqIndex) (E : Engine) (fuel : Nat) (r : Reclaim) :
      Reachable s → manage_space E fuel s.oldest_file_idx = some r →
      Reachable { s with oldest_file_idx := r.oldest_file_idx }
  | advance (s : SeqIndex) :
      Reachable s → Reachable { s with current_file_idx := next_file_idx s.current_file_idx }

/-! ## The naming convention read backwards -/

/-- Decoder for the naming convention in the specification's words: a fixed
prefix, five decimal digits, a fixed extension; the index is the number the
five digits spell. -/
def spec_parse_index (name : String) : Option Nat :=
  let cs := name.data
  if cs.length = 13 ∧ cs.take 4 = "REC_".data ∧ cs.drop 9 = ".WAV".data ∧
      ((cs.drop 4).take 5).all Char.isDigit then
    some (((cs.drop 4).take 5).foldl (fun n c => 10 * n + (c.toNat - 48)) 0)
  else none


/-! ## The hand-over of the two capture regions (`dma_handler`, lines 291-303) -/

/-- The two capture regions `buffer_A` and `buffer_B`. -/
inductive Region where
  | A | B
deriving DecidableEq, Repr

/-- Control points of the capture loop (lines 291-309): the test of
`buffer_A_full`, the test of `buffer_B_full`, the store that clears the flag
of the chosen region, the packing loop about to read sample `i` of it, and the
call of `f_write`. -/
inductive Pc where
  | test_A
  | test_B
  | clear (r : Region)
  | pack (r : Region) (i : Nat)
  | store (r : Region)
deriving DecidableEq, Repr

/-- What the main loop does that concerns the hand-over: it finds a flag set,
clears a flag, reads sample `i` of a region (with the value that region's flag
has at that moment), or calls the storage engine. -/
inductive Event where
  | seen (r : Region)
  | cleared (r : Region)
  | read (r : Region) (i : Nat) (flag : Bool)
  | stored
deriving DecidableEq, Repr

/-- The shared flags, the control point of the main loop and the record of
its events, newest first. -/
structure Machine where
  buffer_A_full : Bool
  buffer_B_full : Bool
  pc : Pc
  hist : List Event
deriving DecidableEq, Repr

/-- The flag that guards a region. -/
def Machine.flag (m : Machine) : Region → Bool
  | Region.A => m.buffer_A_full
  | Region.B => m.buffer_B_full

/-- Embedding of `dma_handler`; `ints_A` and `ints_B` are the two bits of
`ints1` it tests.  Acknowledging the interrupt and re-arming the write address
touch hardware registers only. -/
def dma_handler (ints_A ints_B : Bool) (m : Machine) : Machine :=
  let m := if ints_A then { m with buffer_A_full := true } else m
  if ints_B then { m with buffer_B_full := true } else m

/-- One step of the capture loop: a flag test, the clearing store, the read of
one sample in the packing loop, or the write. -/
def main_step (m : Machine) : Machine :=
  match m.pc with
  | Pc.test_A =>
    if m.buffer_A_full then
      { m with pc := Pc.clear Region.A, hist := Event.seen Region.A :: m.hist }
    else { m with pc := Pc.test_B }
  | Pc.test_B =>
    if m.buffer_B_full then
      { m with pc := Pc.clear Region.B, hist := Event.seen Region.B :: m.hist }
    else { m with pc := Pc.test_A }
  | Pc.clear Region.A =>
    { m with buffer_A_full := false, pc := Pc.pack Region.A 0,
             hist := Event.cleared Region.A :: m.hist }
  | Pc.clear Region.B =>
    { m with buffer_B_full := false, pc := Pc.pack Region.B 0,
             hist := Event.cleared Region.B :: m.hist }
  | Pc.pack r i =>
    if i < BUFFER_SIZE then
      { m with pc := Pc.pack r (i + 1), hist := Event.read r i (m.flag r) :: m.hist }
    else { m with pc := Pc.store r }
  | Pc.store _ => { m with pc := Pc.test_A, hist := Event.stored :: m.hist }

/-- What can happen next: the interrupt handler runs to completion with some
pending bits, or the main loop takes one step. -/
inductive Action where
  | irq (ints_A ints_B : Bool)
  | cpu
deriving DecidableEq, Repr

/-- One action of an interleaving. -/
def step (a : Action) (m : Machine) : Machine :=
  match a with
  | Action.irq ints_A ints_B => dma_handler ints_A ints_B m
  | Action.cpu => main_step m

/-- An interleaving of handler runs and main-loop steps, from a given state. -/
def run (acts : List Action) (m : Machine) : Machine := acts.foldl (fun m a => step a m) m

/-- The state when the capture loop is first entered: both flags clear. -/
def boot : Machine :=
  { buffer_A_full := false, buffer_B_full := false, pc := Pc.test_A, hist := [] }

/-- The hand-over discipline on a state: every recorded read of sample `i` of
a region comes `i + 1` events after the clearing of that region's flag, every
clearing comes right after that flag was found set, and the control point
agrees with the newest events. -/
def handoff_inv (m : Machine) : Prop :=
  (∀ p r i f, m.hist[p]? = some (Event.read r i f) →
    i < BUFFER_SIZE ∧ m.hist[p + i + 1]? = some (Event.cleared r)) ∧
  (∀ p r, m.hist[p]? = some (Event.cleared r) → m.hist[p + 1]? = some (Event.seen r)) ∧
  (∀ r, m.pc = Pc.clear r → m.hist[0]? = some (Event.seen r)) ∧
  (∀ r i, m.pc = Pc.pack r i → m.hist[i]? = some (Event.cleared r))

/-! ## Theorems -/

/-! ### Little-endian fields and the header image -/

theorem le_bytes_length (k v : Nat) : (le_bytes k v).length = k := by
  induction k generalizing v with
  | zero => rfl
  | succ k ih => simp [le_bytes, ih]

theorem le_decode_le_bytes (k v : Nat) : le_decode (le_bytes k v) = v % 256 ^ k := by
  induction k generalizing v with
  | zero => simp [le_bytes, le_decode, Nat.mod_one]
  | succ k ih =>
    simp only [le_bytes, le_decode, ih]
    rw [pow_succ, Nat.mul_comm (256 ^ k) 256, Nat.mod_mul]

theorem image_explicit (n : Nat) :
    (wav_header n).image =
      [82, 73, 70, 70] ++ le_bytes 4 (u32 (n + 36)) ++ [87, 65, 86, 69] ++ [102, 109, 116, 32]
        ++ [16, 0, 0, 0] ++ [1, 0] ++ [1, 0] ++ [0xC0, 0x5D, 0, 0] ++ [0x40, 0x19, 0x01, 0]
        ++ [3, 0] ++ [24, 0] ++ [100, 97, 116, 97] ++ le_bytes 4 n := by
  have ht : u32_sub (u32 (u32 n + sizeof_WavHeader)) 8 = u32 (n + 36) := by
    simp only [u32_sub, u32, sizeof_WavHeader]; omega
  simp only [WavHeader.image, wav_header, ht]
  simp [ascii, le_bytes, u32, u16, CHANNELS, BYTES_PER_SAMPLE, BIT_DEPTH, SAMPLE_RATE]
  omega

/-! ### The packing loop -/

theorem ldiff_255 (m : Nat) : Nat.ldiff 255 m = 255 - m % 256 := by
  apply Nat.eq_of_testBit_eq
  intro i
  have h1 : (255 : Nat) = 2 ^ 8 - 1 := by norm_num
  have h2 : 255 - m % 256 = 2 ^ 8 - (m % 2 ^ 8 + 1) := by omega
  have h3 : m % 2 ^ 8 < 2 ^ 8 := Nat.mod_lt _ (by norm_num)
  rw [Nat.testBit_ldiff, h2, Nat.testBit_two_pow_sub_succ h3, Nat.testBit_mod_two_pow, h1,
    Nat.testBit_two_pow_sub_one]
  cases decide (i < 8) <;> cases m.testBit i <;> rfl

theorem land_255 (x : Int) : Int.land x 255 = x % 256 := by
  cases x with
  | ofNat m =>
    have h : m &&& 255 = m % 256 := Nat.and_pow_two_sub_one_eq_mod m 8
    show ((m &&& 255 : Nat) : Int) = (m : Int) % 256
    rw [h]; omega
  | negSucc m =>
    show ((Nat.ldiff 255 m : Nat) : Int) = Int.negSucc m % 256
    rw [ldiff_255, Int.negSucc_eq]; omega

theorem pack_byte_eq (s : Int) (k : Nat) : pack_byte s k = ((s / (2 ^ k : Nat)) % 256).toNat := by
  unfold pack_byte
  rw [show (0xFF : Int) = 255 from rfl, land_255, Int.shiftRight_eq_div_pow]

theorem pack_byte_0 (s : Int) : pack_byte s 0 = (s % 2 ^ 24).toNat % 256 := by
  rw [pack_byte_eq]; simp only [pow_zero, Nat.cast_one]; omega

theorem pack_byte_8 (s : Int) : pack_byte s 8 = (s % 2 ^ 24).toNat / 256 % 256 := by
  rw [pack_byte_eq]; norm_num; omega

theorem pack_byte_16 (s : Int) : pack_byte s 16 = (s % 2 ^ 24).toNat / 65536 % 256 := by
  rw [pack_byte_eq]; norm_num; omega

theorem pack_upto (src : List Int) (stage : List Nat) (n : Nat) :
    ((List.range n).foldl (pack_iter src) stage).length = stage.length ∧
    ∀ j, ((List.range n).foldl (pack_iter src) stage)[j]? =
      if j < 3 * n then
        (if j < stage.length then some (pack_byte (src.getD (j / 3) 0) (8 * (j % 3))) else none)
      else stage[j]? := by
  induction n with
  | zero => simp
  | succ n ih =>
    obtain ⟨hl, hj⟩ := ih
    rw [List.range_succ, List.foldl_append]
    simp only [List.foldl_cons, List.foldl_nil]
    constructor
    · simp [pack_iter, hl]
    · intro j
      simp only [pack_iter, List.getElem?_set, List.length_set, hl, hj]
      by_cases h2 : n * 3 + 2 = j
      · have e1 : j / 3 = n := by omega
        have e2 : j % 3 = 2 := by omega
        have e3 : j < 3 * (n + 1) := by omega
        simp [h2, e1, e2, e3]
      · by_cases h1 : n * 3 + 1 = j
        · have e1 : j / 3 = n := by omega
          have e2 : j % 3 = 1 := by omega
          have e3 : j < 3 * (n + 1) := by omega
          simp [h2, h1, e1, e2, e3]
        · by_cases h0 : n * 3 + 0 = j
          · have e1 : j / 3 = n := by omega
            have e2 : j % 3 = 0 := by omega
            have e3 : j < 3 * (n + 1) := by omega
            simp [h2, h1, h0, e1, e2, e3]
          · by_cases hlt : j < 3 * n
            · have e3 : j < 3 * (n + 1) := by omega
              have h0' : ¬ n * 3 = j := by omega
              simp [h2, h1, h0', hlt, e3]
            · have e3 : ¬ j < 3 * (n + 1) := by omega
              have h0' : ¬ n * 3 = j := by omega
              simp [h2, h1, h0', hlt, e3]

theorem pack_getElem (src : List Int) (stage : List Nat) (j : Nat)
    (hst : stage.length = BUFFER_SIZE * BYTES_PER_SAMPLE) (hj : j < BUFFER_SIZE * BYTES_PER_SAMPLE) :
    (pack src stage)[j]? = some (pack_byte (src.getD (j / 3) 0) (8 * (j % 3))) := by
  have h := (pack_upto src stage BUFFER_SIZE).2 j
  have e : (BUFFER_SIZE * BYTES_PER_SAMPLE : Nat) = 3 * BUFFER_SIZE := by decide
  rw [e] at hj hst
  unfold pack
  rw [h, if_pos hj, if_pos (by omega)]

theorem pack_length (src : List Int) (stage : List Nat) :
    (pack src stage).length = stage.length :=
  (pack_upto src stage BUFFER_SIZE).1

theorem pack_indep (src : List Int) (stage stage' : List Nat)
    (hst : stage.length = BUFFER_SIZE * BYTES_PER_SAMPLE)
    (hst' : stage'.length = BUFFER_SIZE * BYTES_PER_SAMPLE) :
    pack src stage = pack src stage' := by
  apply List.ext_getElem?
  intro j
  by_cases hj : j < BUFFER_SIZE * BYTES_PER_SAMPLE
  · rw [pack_getElem src stage j hst hj, pack_getElem src stage' j hst' hj]
  · rw [List.getElem?_eq_none (by rw [pack_length]; omega),
      List.getElem?_eq_none (by rw [pack_length]; omega)]

theorem slice_getElem? (l : List Nat) (k len j : Nat) :
    (slice l k len)[j]? = if j < len then l[k + j]? else none := by
  unfold slice
  rw [List.getElem?_take]
  split_ifs <;> simp [List.getElem?_drop]

theorem slice_three (l : List Nat) (k a b c : Nat) (h0 : l[k]? = some a)
    (h1 : l[k + 1]? = some b) (h2 : l[k + 2]? = some c) : slice l k 3 = [a, b, c] := by
  apply List.ext_getElem?
  intro j
  rw [slice_getElem?]
  match j with
  | 0 => simpa using h0
  | 1 => simpa using h1
  | 2 => simpa using h2
  | j + 3 => simp

/-- C4: for a buffer of 4096 samples and a staging region of 12,288 bytes, the
packing loop leaves at offsets `3i`, `3i+1`, `3i+2` the three low bytes of
sample `i` (its value modulo `2 ^ 24`, least-significant byte first, bits 24-31
dropped); the region keeps its 12,288 bytes with no gap between samples, and
the result is the same whatever the region held before. -/
theorem pack_layout (src : List Int) (stage stage' : List Nat) (i : Nat)
    (hsrc : src.length = BUFFER_SIZE)
    (hst : stage.length = BUFFER_SIZE * BYTES_PER_SAMPLE)
    (hst' : stage'.length = BUFFER_SIZE * BYTES_PER_SAMPLE)
    (hi : i < BUFFER_SIZE) :
    ∃ s : Int, src[i]? = some s ∧
      (pack src stage).length = 12288 ∧
      (pack src stage)[3 * i]? = some ((s % 2 ^ 24).toNat % 256) ∧
      (pack src stage)[3 * i + 1]? = some ((s % 2 ^ 24).toNat / 256 % 256) ∧
      (pack src stage)[3 * i + 2]? = some ((s % 2 ^ 24).toNat / 65536 % 256) ∧
      slice (pack src stage) (3 * i) 3 = le_bytes 3 (s % 2 ^ 24).toNat ∧
      (s % 2 ^ 24).toNat = (s % 2 ^ 32).toNat % 2 ^ 24 ∧
      pack src stage = pack src stage' := by
  have e : (BUFFER_SIZE * BYTES_PER_SAMPLE : Nat) = 12288 := by decide
  have hB : BUFFER_SIZE = 4096 := rfl
  have hi' : i < src.length := by omega
  have hs : src.getD i 0 = src[i] := List.getD_eq_getElem src 0 hi'
  have g0 := pack_getElem src stage (3 * i) hst (by omega)
  have g1 := pack_getElem src stage (3 * i + 1) hst (by omega)
  have g2 := pack_getElem src stage (3 * i + 2) hst (by omega)
  rw [show 3 * i / 3 = i by omega, show 3 * i % 3 = 0 by omega, pack_byte_0, hs] at g0
  rw [show (3 * i + 1) / 3 = i by omega, show (3 * i + 1) % 3 = 1 by omega, pack_byte_8, hs] at g1
  rw [show (3 * i + 2) / 3 = i by omega, show (3 * i + 2) % 3 = 2 by omega, pack_byte_16, hs] at g2
  refine ⟨src[i], List.getElem?_eq_getElem hi', by rw [pack_length, hst, e], g0, g1, g2, ?_,
    by omega, pack_indep src stage stage' hst hst'⟩
  rw [slice_three _ _ _ _ _ g0 g1 g2]
  simp [le_bytes, Nat.div_div_eq_div_mul]

/-- Witness for `pack_layout`: a buffer of 4096 samples all equal to `-2`,
sample 7, staging regions of zeros and of ones; the three bytes are
`FE FF FF`. -/
theorem pack_layout_witness :
    (pack (List.replicate 4096 (-2)) (List.replicate 12288 0)).length = 12288 ∧
    slice (pack (List.replicate 4096 (-2)) (List.replicate 12288 0)) (3 * 7) 3
      = [0xFE, 0xFF, 0xFF] ∧
    pack (List.replicate 4096 (-2)) (List.replicate 12288 0)
      = pack (List.replicate 4096 (-2)) (List.replicate 12288 1) := by
  obtain ⟨s, hs, hl, _, _, _, hsl, _, hind⟩ :=
    pack_layout (List.replicate 4096 (-2)) (List.replicate 12288 0) (List.replicate 12288 1) 7
      (by rw [List.length_replicate]; rfl) (by rw [List.length_replicate]; rfl)
      (by rw [List.length_replicate]; rfl) (by decide)
  rw [List.getElem?_replicate, if_pos (by decide)] at hs
  cases hs
  exact ⟨hl, by rw [hsl]; decide, hind⟩

/-! ### Header fields -/

theorem le_bytes_four_u32 (v : Nat) : le_bytes 4 (u32 v) = le_bytes 4 v := by
  simp only [le_bytes, u32, List.cons.injEq, and_true]
  refine ⟨by omega, by omega, by omega, by omega⟩

theorem image_length (n : Nat) : (wav_header n).image.length = 44 := by
  rw [image_explicit]; simp [le_bytes_length]

theorem slice_take (l : List Nat) (off len m : Nat) (h : off + len ≤ m) :
    slice (l.take m) off len = slice l off len := by
  apply List.ext_getElem?
  intro j
  rw [slice_getElem?, slice_getElem?]
  split_ifs with hj
  · rw [List.getElem?_take]; rw [if_pos (by omega)]
  · rfl

theorem header_rewrite_take (fil : FIL) (n : Nat) :
    (write_wav_header (f_lseek fil 0) n 44).data.take 44 = (wav_header n).image := by
  have hl := image_length n
  simp only [write_wav_header, f_write, f_lseek, sizeof_WavHeader, List.take_zero, List.nil_append,
    Nat.zero_add]
  have h1 : List.take (min (4 * 4 + 5 * 4 + 4 * 2) 44) (wav_header n).image = (wav_header n).image := by
    apply List.take_of_length_le; rw [hl]; decide
  rw [h1, List.take_append_of_le_length (by rw [hl]), List.take_of_length_le (by rw [hl])]

theorem image_fields (n : Nat) :
    le_decode (slice (wav_header n).image 4 4) = u32 (n + 36) ∧
    le_decode (slice (wav_header n).image 22 2) = 1 ∧
    le_decode (slice (wav_header n).image 24 4) = 24000 ∧
    le_decode (slice (wav_header n).image 34 2) = 24 ∧
    le_decode (slice (wav_header n).image 40 4) = u32 n := by
  have h4 : slice (wav_header n).image 4 4 = le_bytes 4 (u32 (n + 36)) := by
    rw [image_explicit]; simp [slice, le_bytes]
  have h40 : slice (wav_header n).image 40 4 = le_bytes 4 n := by
    rw [image_explicit]; simp [slice, le_bytes]
  have h22 : slice (wav_header n).image 22 2 = [1, 0] := by
    rw [image_explicit]; simp [slice, le_bytes]
  have h24 : slice (wav_header n).image 24 4 = [0xC0, 0x5D, 0, 0] := by
    rw [image_explicit]; simp [slice, le_bytes]
  have h34 : slice (wav_header n).image 34 2 = [24, 0] := by
    rw [image_explicit]; simp [slice, le_bytes]
  rw [h4, h40, h22, h24, h34, le_decode_le_bytes, le_decode_le_bytes]
  refine ⟨?_, by simp [le_decode], by simp [le_decode], by simp [le_decode], ?_⟩
  · simp only [u32]; omega
  · simp only [u32]; omega

/-- C2: when `n + 36` fits in 32 bits, bytes 4-7 of the header emitted for a
payload of `n` bytes decode (little-endian) to `n + 44 - 8 = n + 36`; for
4,320,000 payload bytes the field reads 4,320,036. -/
theorem total_size_field (n : Nat) (h : n + 36 < 2 ^ 32) :
    le_decode (slice (wav_header n).image 4 4) = n + sizeof_WavHeader - 8 ∧
    n + sizeof_WavHeader - 8 = n + 36 ∧
    le_decode (slice (write_wav_header { data := [], fptr := 0 } n 44).data 4 4) = n + 36 ∧
    le_decode (slice (wav_header 4320000).image 4 4) = 4320036 := by
  have e : n + sizeof_WavHeader - 8 = n + 36 := by simp only [sizeof_WavHeader]; omega
  have hw := header_rewrite_take { data := [], fptr := 0 } n
  have ht : slice (write_wav_header { data := [], fptr := 0 } n 44).data 4 4
      = slice (wav_header n).image 4 4 := by
    rw [← hw, slice_take _ _ _ _ (by decide)]; rfl
  rw [ht, (image_fields n).1, (image_fields 4320000).1, e]
  refine ⟨?_, rfl, ?_, by decide⟩ <;> (simp only [u32]; omega)

/-- Witness for `total_size_field` at the one-minute payload. -/
theorem total_size_field_witness :
    le_decode (slice (wav_header 4320000).image 4 4) = 4320000 + sizeof_WavHeader - 8 ∧
    4320000 + sizeof_WavHeader - 8 = 4320000 + 36 ∧
    le_decode (slice (write_wav_header { data := [], fptr := 0 } 4320000 44).data 4 4)
      = 4320000 + 36 ∧
    le_decode (slice (wav_header 4320000).image 4 4) = 4320036 :=
  total_size_field 4320000 (by decide)

/-- C3: for every payload size the header image is exactly 44 bytes: the tag
`RIFF`, the total size, the tags `WAVE` and `fmt `, the format-block size 16,
format id 1, channel count 1, sample rate 24000, byte rate 72000, block
alignment 3, bit depth 24, the tag `data` and the payload byte count, every
numeric field little-endian; these are the bytes handed to the storage
engine. -/
theorem wav_header_layout (n : Nat) :
    sizeof_WavHeader = 44 ∧
    (wav_header n).image.length = 44 ∧
    (wav_header n).image =
      [0x52, 0x49, 0x46, 0x46] ++ le_bytes 4 (n + 44 - 8) ++ [0x57, 0x41, 0x56, 0x45]
        ++ [0x66, 0x6D, 0x74, 0x20] ++ le_bytes 4 16 ++ le_bytes 2 1 ++ le_bytes 2 1
        ++ le_bytes 4 24000 ++ le_bytes 4 72000 ++ le_bytes 2 3 ++ le_bytes 2 24
        ++ [0x64, 0x61, 0x74, 0x61] ++ le_bytes 4 n ∧
    slice (wav_header n).image 8 32 =
      [0x57, 0x41, 0x56, 0x45, 0x66, 0x6D, 0x74, 0x20, 16, 0, 0, 0, 1, 0, 1, 0,
        0xC0, 0x5D, 0, 0, 0x40, 0x19, 0x01, 0, 3, 0, 24, 0, 0x64, 0x61, 0x74, 0x61] ∧
    [0x52, 0x49, 0x46, 0x46] = ascii "RIFF" ∧ [0x57, 0x41, 0x56, 0x45] = ascii "WAVE" ∧
    [0x66, 0x6D, 0x74, 0x20] = ascii "fmt " ∧ [0x64, 0x61, 0x74, 0x61] = ascii "data" ∧
    72000 = SAMPLE_RATE * CHANNELS * BYTES_PER_SAMPLE ∧
    3 = CHANNELS * BYTES_PER_SAMPLE ∧
    (wav_header n).byte_rate = 72000 ∧ (wav_header n).block_align = 3 ∧
    (write_wav_header { data := [], fptr := 0 } n 44).data = (wav_header n).image := by
  have hw := header_rewrite_take { data := [], fptr := 0 } n
  refine ⟨rfl, image_length n, ?_, ?_, by decide, by decide, by decide, by decide, by decide,
    by decide, rfl, rfl, ?_⟩
  · rw [image_explicit, ← le_bytes_four_u32 (n + 44 - 8)]
    have : n + 44 - 8 = n + 36 := by omega
    rw [this]; simp [le_bytes]
  · rw [image_explicit]; simp [slice, le_bytes]
  · simp only [write_wav_header, f_write, sizeof_WavHeader, List.take_zero, List.nil_append,
      Nat.zero_add, List.drop_nil, List.append_nil]
    apply List.take_of_length_le; rw [image_length]; decide

/-! ### The recording session -/

theorem max_file_bytes_eq : max_file_bytes = 4320000 := by decide

theorem streaming_complete (evs : List (Option Drain)) (st : Session)
    (hbw : ∀ c ∈ reported evs, c ≤ BUFFER_SIZE * 3)
    (hrun : st.current_file_bytes + (reported evs.dropLast).sum < max_file_bytes)
    (hend : max_file_bytes ≤ st.current_file_bytes + (reported evs).sum) :
    ∃ st', streaming evs st = some st' ∧
      st'.current_file_bytes = st.current_file_bytes + (reported evs).sum ∧
      st'.writes = st.writes + (reported evs).length ∧
      st'.current_file_bytes < max_file_bytes + BUFFER_SIZE * 3 := by
  induction evs generalizing st with
  | nil => simp [reported] at hrun hend; omega
  | cons ev evs ih =>
    have hm := max_file_bytes_eq
    have hB : BUFFER_SIZE * 3 = 12288 := by decide
    have hlt : st.current_file_bytes < max_file_bytes := by omega
    cases ev with
    | none =>
      cases evs with
      | nil => simp [reported] at hrun hend; omega
      | cons e2 es =>
        rw [List.dropLast_cons₂] at hrun
        simp only [reported] at hbw hrun hend ⊢
        rw [streaming, if_pos hlt]
        exact ih st hbw hrun hend
    | some d =>
      have hd : d.bw ≤ BUFFER_SIZE * 3 := hbw d.bw (by simp [reported])
      have hu : u32 (st.current_file_bytes + d.bw) = st.current_file_bytes + d.bw := by
        simp only [u32]; omega
      cases evs with
      | nil =>
        simp only [reported, List.sum_cons, List.sum_nil, List.length_cons, List.length_nil,
          Nat.add_zero] at hend ⊢
        rw [streaming, if_pos hlt]
        simp only [hu]
        rw [streaming, if_neg (by simp only; omega)]
        exact ⟨_, rfl, rfl, rfl, by simp only; omega⟩
      | cons e2 es =>
        rw [List.dropLast_cons₂] at hrun
        simp only [reported, List.sum_cons, List.length_cons] at hbw hrun hend ⊢
        rw [streaming, if_pos hlt]
        simp only [hu]
        have hbw' : ∀ c ∈ reported (e2 :: es), c ≤ BUFFER_SIZE * 3 := by
          intro c hc; exact hbw c (by simp [hc])
        obtain ⟨st', h1, h2, h3, h4⟩ := ih
          { fil := f_write st.fil (pack d.samples st.stage_buffer) (BUFFER_SIZE * 3) d.bw
            stage_buffer := pack d.samples st.stage_buffer
            current_file_bytes := st.current_file_bytes + d.bw
            writes := st.writes + 1 } hbw' (by simp only; omega) (by simp only; omega)
        refine ⟨st', h1, ?_, ?_, h4⟩
        · rw [h2]; simp only; omega
        · rw [h3]; simp only; omega

theorem f_write_at_end (fil : FIL) (buff : List Nat) (btw bw : Nat)
    (h : fil.fptr = fil.data.length) :
    (f_write fil buff btw bw).data = fil.data ++ buff.take (min btw bw) ∧
    (f_write fil buff btw bw).fptr = (f_write fil buff btw bw).data.length := by
  simp only [f_write, h, List.take_length, List.length_append]
  rw [List.drop_eq_nil_of_le (by omega)]
  simp

theorem f_write_rewind (fil : FIL) (buff : List Nat) (btw bw : Nat) :
    (f_write (f_lseek fil 0) buff btw bw).data
      = buff.take (min btw bw) ++ fil.data.drop (buff.take (min btw bw)).length := by
  simp only [f_write, f_lseek, List.take_zero, List.nil_append, Nat.zero_add]

theorem written_length (evs : List (Option Drain)) (stage : List Nat)
    (hstage : stage.length = BUFFER_SIZE * BYTES_PER_SAMPLE)
    (hbw : ∀ c ∈ reported evs, c ≤ BUFFER_SIZE * 3) :
    (written evs stage).length = (reported evs).sum := by
  have hB : BUFFER_SIZE * BYTES_PER_SAMPLE = BUFFER_SIZE * 3 := by decide
  induction evs generalizing stage with
  | nil => rfl
  | cons ev evs ih =>
    cases ev with
    | none => simp only [written, reported]; exact ih stage hstage hbw
    | some d =>
      have hd : d.bw ≤ BUFFER_SIZE * 3 := hbw d.bw (by simp [reported])
      have hp : (pack d.samples stage).length = BUFFER_SIZE * BYTES_PER_SAMPLE := by
        rw [pack_length, hstage]
      simp only [written, reported, List.length_append, List.length_take, List.sum_cons]
      rw [ih (pack d.samples stage) hp (fun c hc => hbw c (by simp [reported, hc])), hp]
      omega

theorem streaming_complete_file (evs : List (Option Drain)) (st : Session)
    (hbw : ∀ c ∈ reported evs, c ≤ BUFFER_SIZE * 3)
    (hrun : st.current_file_bytes + (reported evs.dropLast).sum < max_file_bytes)
    (hend : max_file_bytes ≤ st.current_file_bytes + (reported evs).sum)
    (hf : st.fil.fptr = st.fil.data.length) :
    ∃ st', streaming evs st = some st' ∧
      st'.current_file_bytes = st.current_file_bytes + (reported evs).sum ∧
      st'.writes = st.writes + (reported evs).length ∧
      st'.fil.data = st.fil.data ++ written evs st.stage_buffer ∧
      st'.fil.fptr = st'.fil.data.length := by
  induction evs generalizing st with
  | nil => simp [reported] at hrun hend; omega
  | cons ev evs ih =>
    have hm := max_file_bytes_eq
    have hB : BUFFER_SIZE * 3 = 12288 := by decide
    have hlt : st.current_file_bytes < max_file_bytes := by omega
    cases ev with
    | none =>
      cases evs with
      | nil => simp [reported] at hrun hend; omega
      | cons e2 es =>
        rw [List.dropLast_cons₂] at hrun
        simp only [reported, written] at hbw hrun hend ⊢
        rw [streaming, if_pos hlt]
        exact ih st hbw hrun hend hf
    | some d =>
      have hd : d.bw ≤ BUFFER_SIZE * 3 := hbw d.bw (by simp [reported])
      have hu : u32 (st.current_file_bytes + d.bw) = st.current_file_bytes + d.bw := by
        simp only [u32]; omega
      obtain ⟨w1, w2⟩ := f_write_at_end st.fil (pack d.samples st.stage_buffer)
        (BUFFER_SIZE * 3) d.bw hf
      cases evs with
      | nil =>
        simp only [reported, written, List.sum_cons, List.sum_nil, List.length_cons,
          List.length_nil, Nat.add_zero, List.append_nil] at hend ⊢
        rw [streaming, if_pos hlt]
        simp only [hu]
        rw [streaming, if_neg (by simp only; omega)]
        exact ⟨_, rfl, rfl, rfl, w1, w2⟩
      | cons e2 es =>
        rw [List.dropLast_cons₂] at hrun
        simp only [reported, List.sum_cons, List.length_cons] at hbw hrun hend ⊢
        rw [streaming, if_pos hlt]
        simp only [hu]
        have hbw' : ∀ c ∈ reported (e2 :: es), c ≤ BUFFER_SIZE * 3 := by
          intro c hc; exact hbw c (by simp [hc])
        obtain ⟨st', h1, h2, h3, h4, h5⟩ := ih
          { fil := f_write st.fil (pack d.samples st.stage_buffer) (BUFFER_SIZE * 3) d.bw
            stage_buffer := pack d.samples st.stage_buffer
            current_file_bytes := st.current_file_bytes + d.bw
            writes := st.writes + 1 } hbw' (by simp only; omega) (by simp only; omega) w2
        refine ⟨st', h1, ?_, ?_, ?_, h5⟩
        · rw [h2]; simp only; omega
        · rw [h3]; simp only; omega
        · rw [h4]; simp only [w1, written, List.append_assoc]

theorem session_run (stage : List Nat) (bw0 bw1 : Nat) (evs : List (Option Drain))
    (hbw : ∀ c ∈ reported evs, c ≤ BUFFER_SIZE * 3)
    (hrun : (reported evs.dropLast).sum < max_file_bytes)
    (hend : max_file_bytes ≤ (reported evs).sum) :
    ∃ st, recording_session stage bw0 evs bw1 = some st ∧
      st.current_file_bytes = (reported evs).sum ∧
      st.writes = (reported evs).length ∧
      st.fil.data = (wav_header (reported evs).sum).image.take (min 44 bw1) ++
        ((wav_header 0).image.take (min 44 bw0) ++ written evs stage).drop (min 44 bw1) := by
  obtain ⟨p1, p2⟩ := f_write_at_end { data := [], fptr := 0 } (wav_header 0).image
    sizeof_WavHeader bw0 rfl
  obtain ⟨st', h1, h2, h3, h4, _⟩ := streaming_complete_file evs
    { fil := write_wav_header { data := [], fptr := 0 } 0 bw0, stage_buffer := stage,
      current_file_bytes := 0, writes := 0 }
    hbw (by simpa using hrun) (by simpa using hend) p2
  simp only [Nat.zero_add] at h2 h3
  simp only [write_wav_header, p1, List.nil_append] at h4
  refine ⟨{ st' with fil := write_wav_header (f_lseek st'.fil 0) st'.current_file_bytes bw1 }, ?_,
    h2, h3, ?_⟩
  · simp only [recording_session, h1]
  · have hl : ((wav_header (reported evs).sum).image.take (min 44 bw1)).length = min 44 bw1 := by
      rw [List.length_take, image_length]; omega
    simp only [write_wav_header, f_write_rewind, h2, h4]
    rw [show sizeof_WavHeader = 44 from rfl, hl]

/-- C1, as the code has it: take the passes of one completed capture loop (the
loop still runs before the last pass and has reached its target after it), the
storage engine reporting for each sample write any count up to the 12,288
bytes offered and any count for the placeholder header, and let the final
header rewrite be stored in full.  The session then finishes, and the first 44
bytes of the finished file decode to a payload size (bytes 40-43) equal to the
sum of the reported counts, channel count 1, sample rate 24000 and bit depth
24.  When the placeholder was stored in full as well, the file is that header
followed by exactly the sample bytes the engine took; for a staging region of
12,288 bytes their number is the sum of the reported counts. -/
theorem session_header_roundtrip (stage : List Nat) (bw0 bw1 : Nat)
    (evs : List (Option Drain))
    (hbw : ∀ c ∈ reported evs, c ≤ BUFFER_SIZE * 3)
    (hrun : (reported evs.dropLast).sum < max_file_bytes)
    (hend : max_file_bytes ≤ (reported evs).sum)
    (hfinal : sizeof_WavHeader ≤ bw1) :
    ∃ st, recording_session stage bw0 evs bw1 = some st ∧
      st.current_file_bytes = (reported evs).sum ∧
      st.writes = (reported evs).length ∧
      le_decode (slice (st.fil.data.take 44) 40 4) = (reported evs).sum ∧
      le_decode (slice (st.fil.data.take 44) 22 2) = 1 ∧
      le_decode (slice (st.fil.data.take 44) 24 4) = 24000 ∧
      le_decode (slice (st.fil.data.take 44) 34 2) = 24 ∧
      (sizeof_WavHeader ≤ bw0 →
        st.fil.data = (wav_header (reported evs).sum).image ++ written evs stage) ∧
      (stage.length = BUFFER_SIZE * BYTES_PER_SAMPLE →
        (written evs stage).length = (reported evs).sum) := by
  have hm := max_file_bytes_eq
  have hS : sizeof_WavHeader = 44 := rfl
  obtain ⟨st, h1, h2, h3, h4⟩ := session_run stage bw0 bw1 evs hbw hrun hend
  obtain ⟨st', _, c2, _, c4⟩ := streaming_complete evs
    { fil := write_wav_header { data := [], fptr := 0 } 0 bw0, stage_buffer := stage,
      current_file_bytes := 0, writes := 0 }
    hbw (by simpa using hrun) (by simpa using hend)
  have hsum : (reported evs).sum < 2 ^ 32 := by
    have hB : BUFFER_SIZE * 3 = 12288 := by decide
    simp only [Nat.zero_add] at c2
    omega
  have hmin : min 44 bw1 = 44 := by omega
  have htk : ∀ n, (wav_header n).image.take 44 = (wav_header n).image := fun n =>
    List.take_of_length_le (by rw [image_length])
  rw [hmin, htk] at h4
  have hhead : st.fil.data.take 44 = (wav_header (reported evs).sum).image := by
    rw [h4, List.take_append_of_le_length (by rw [image_length]), htk]
  obtain ⟨_, f1, f2, f3, f4⟩ := image_fields (reported evs).sum
  refine ⟨st, h1, h2, h3, ?_, ?_, ?_, ?_, ?_, fun hstage => written_length evs stage hstage hbw⟩
  · rw [hhead, f4]; simp only [u32]; omega
  · rw [hhead]; exact f1
  · rw [hhead]; exact f2
  · rw [hhead]; exact f3
  · intro hb0
    have hmin0 : min 44 bw0 = 44 := by omega
    rw [h4, hmin0, htk, List.drop_left' (image_length 0)]

theorem reported_replicate (n : Nat) (d : Drain) :
    reported (List.replicate n (some d)) = List.replicate n d.bw := by
  induction n with
  | zero => rfl
  | succ n ih => simp [List.replicate_succ, reported, ih]

/-- Witness for `session_header_roundtrip`: 352 passes, each draining a buffer
of 4096 samples whose write is reported in full; the payload size read back is
4,325,376 and the file holds 44 + 4,325,376 bytes. -/
theorem session_header_roundtrip_witness :
    ∃ st, recording_session (List.replicate 12288 0) 44
        (List.replicate 352 (some { samples := List.replicate 4096 (-2), bw := 12288 })) 44
        = some st ∧
      st.current_file_bytes = 4325376 ∧
      le_decode (slice (st.fil.data.take 44) 40 4) = 4325376 ∧
      le_decode (slice (st.fil.data.take 44) 22 2) = 1 ∧
      le_decode (slice (st.fil.data.take 44) 24 4) = 24000 ∧
      le_decode (slice (st.fil.data.take 44) 34 2) = 24 ∧
      st.fil.data.length = 44 + 4325376 := by
  have hsum : (reported (List.replicate 352
      (some { samples := List.replicate 4096 (-2), bw := 12288 }))).sum = 4325376 := by
    rw [reported_replicate, List.sum_replicate]; rfl
  obtain ⟨st, h1, h2, _, h3, h4, h5, h6, h7, h8⟩ :=
    session_header_roundtrip (List.replicate 12288 0) 44 44
      (List.replicate 352 (some { samples := List.replicate 4096 (-2), bw := 12288 }))
      (by
        rw [reported_replicate]
        intro c hc
        rw [List.eq_of_mem_replicate hc]
        decide)
      (by
        rw [List.dropLast_replicate, reported_replicate, List.sum_replicate, max_file_bytes_eq]
        decide)
      (by
        rw [reported_replicate, List.sum_replicate, max_file_bytes_eq]
        decide)
      (by decide)
  have hlen := h8 (by rw [List.length_replicate]; rfl)
  have hdata := h7 (by decide)
  rw [hsum] at h2 h3 hlen
  refine ⟨st, h1, h2, h3, h4, h5, h6, ?_⟩
  rw [hdata, List.length_append, image_length, hlen]

theorem session_final_write_lost (stage : List Nat) (evs : List (Option Drain))
    (hbw : ∀ c ∈ reported evs, c ≤ BUFFER_SIZE * 3)
    (hrun : (reported evs.dropLast).sum < max_file_bytes)
    (hend : max_file_bytes ≤ (reported evs).sum) :
    ∃ st, recording_session stage 44 evs 0 = some st ∧
      st.current_file_bytes = (reported evs).sum ∧
      le_decode (slice (st.fil.data.take 44) 40 4) = 0 := by
  obtain ⟨st, h1, h2, _, h4⟩ := session_run stage 44 0 evs hbw hrun hend
  have htk : (wav_header 0).image.take 44 = (wav_header 0).image :=
    List.take_of_length_le (by rw [image_length])
  simp only [Nat.min_self, Nat.min_zero, List.take_zero, List.nil_append, List.drop_zero,
    htk] at h4
  refine ⟨st, h1, h2, ?_⟩
  rw [h4, List.take_append_of_le_length (by rw [image_length]), htk, (image_fields 0).2.2.2.2]
  rfl

/-- C1 as stated fails: when the storage engine stores nothing of the final
header rewrite (reported count 0), the session still completes after 352 full
sample writes, 4,325,376 bytes in all, and bytes 40-43 of the file still hold
the placeholder value 0. -/
theorem session_header_unwritten_counterexample :
    ∃ st, recording_session (List.replicate 12288 0) 44
        (List.replicate 352 (some { samples := List.replicate 4096 (-2), bw := 12288 })) 0
        = some st ∧
      (reported (List.replicate 352
        (some { samples := List.replicate 4096 (-2), bw := 12288 }))).sum = 4325376 ∧
      st.current_file_bytes = 4325376 ∧
      le_decode (slice (st.fil.data.take 44) 40 4) = 0 := by
  have hsum : (reported (List.replicate 352
      (some { samples := List.replicate 4096 (-2), bw := 12288 }))).sum = 4325376 := by
    rw [reported_replicate, List.sum_replicate]; rfl
  obtain ⟨st, h1, h2, h3⟩ := session_final_write_lost (List.replicate 12288 0)
      (List.replicate 352 (some { samples := List.replicate 4096 (-2), bw := 12288 }))
      (by
        rw [reported_replicate]
        intro c hc
        rw [List.eq_of_mem_replicate hc]
        decide)
      (by
        rw [List.dropLast_replicate, reported_replicate, List.sum_replicate, max_file_bytes_eq]
        decide)
      (by
        rw [reported_replicate, List.sum_replicate, max_file_bytes_eq]
        decide)
  rw [hsum] at h2
  exact ⟨st, h1, hsum, h2, h3⟩

/-! ### File sequence recovery -/

theorem find_from_eq_some_iff (p : Nat → Bool) (fuel i k : Nat) :
    find_from p fuel i = some k ↔
      i ≤ k ∧ k < i + fuel ∧ p k = true ∧ ∀ j, i ≤ j → j < k → p j = false := by
  induction fuel generalizing i with
  | zero => simp only [find_from]; constructor
            · intro h; cases h
            · rintro ⟨h1, h2, _⟩; omega
  | succ fuel ih =>
    rw [find_from]
    by_cases hp : p i = true
    · rw [if_pos hp]
      constructor
      · intro h
        cases h
        exact ⟨le_refl _, by omega, hp, fun j h1 h2 => by omega⟩
      · rintro ⟨h1, _, _, h4⟩
        rcases Nat.eq_or_lt_of_le h1 with h | h
        · rw [h]
        · have := h4 i (le_refl _) h
          rw [hp] at this; cases this
    · rw [if_neg hp, ih]
      have hpf : p i = false := by simpa using hp
      constructor
      · rintro ⟨h1, h2, h3, h4⟩
        refine ⟨by omega, by omega, h3, fun j hj1 hj2 => ?_⟩
        rcases Nat.eq_or_lt_of_le hj1 with h | h
        · rw [← h]; exact hpf
        · exact h4 j h hj2
      · rintro ⟨h1, h2, h3, h4⟩
        have hne : i ≠ k := by
          intro h; rw [h] at hpf; rw [hpf] at h3; cases h3
        exact ⟨by omega, by omega, h3, fun j hj1 hj2 => h4 j (by omega) hj2⟩

theorem find_from_eq_none_iff (p : Nat → Bool) (fuel i : Nat) :
    find_from p fuel i = none ↔ ∀ j, i ≤ j → j < i + fuel → p j = false := by
  induction fuel generalizing i with
  | zero => simp only [find_from, true_iff]; intro j h1 h2; omega
  | succ fuel ih =>
    rw [find_from]
    by_cases hp : p i = true
    · rw [if_pos hp]
      constructor
      · intro h; cases h
      · intro h
        have := h i (le_refl _) (by omega)
        rw [hp] at this; cases this
    · rw [if_neg hp, ih]
      have hpf : p i = false := by simpa using hp
      constructor
      · intro h j hj1 hj2
        rcases Nat.eq_or_lt_of_le hj1 with e | e
        · rw [← e]; exact hpf
        · exact h j e (by omega)
      · intro h j hj1 hj2
        exact h j (by omega) (by omega)

theorem full_scan_eq (f_stat : String → FRESULT) (st : SeqIndex) :
    full_scan f_stat st =
      match find_from (fun i => decide (f_stat (rec_name i) = FR_OK)) MAX_FILES_SCAN 0 with
      | none => { current_file_idx := 0, oldest_file_idx := 0 }
      | some o =>
        { current_file_idx :=
            (find_from (fun i => decide (f_stat (rec_name i) = FR_NO_FILE))
              (MAX_FILES_SCAN - o) o).getD 0
          oldest_file_idx := o } := by
  unfold full_scan
  cases find_from (fun i => decide (f_stat (rec_name i) = FR_OK)) MAX_FILES_SCAN 0 with
  | none => rfl
  | some o =>
    simp only
    cases h2 : find_from (fun i => decide (f_stat (rec_name i) = FR_NO_FILE))
      (MAX_FILES_SCAN - o) o <;> rfl

theorem full_scan_indep (f_stat : String → FRESULT) (st st' : SeqIndex) :
    full_scan f_stat st = full_scan f_stat st' := by
  rw [full_scan_eq, full_scan_eq f_stat st']

theorem scan_files_indep (f_stat : String → FRESULT) (st st' : SeqIndex) :
    scan_files f_stat st = scan_files f_stat st' := by
  unfold scan_files
  by_cases h : f_stat "REC_00000.WAV" = FR_NO_FILE
  · rw [if_pos h, if_pos h]
  · rw [if_neg h, if_neg h]; exact full_scan_indep _ _ _

/-- C6: whatever the two counters held before, `scan_files` assigns both on
every path: its result depends on the file set alone, so a second run against
the same file set returns the same pair. -/
theorem scan_files_idempotent (f_stat : String → FRESULT) (st st' : SeqIndex) :
    scan_files f_stat st = scan_files f_stat st' ∧
    scan_files f_stat (scan_files f_stat st) = scan_files f_stat st :=
  ⟨scan_files_indep f_stat st st', scan_files_indep f_stat _ st⟩

theorem rec_name_zero : rec_name 0 = "REC_00000.WAV" := by decide

theorem scan_files_reaches_full_scan (f_stat : String → FRESULT) (st : SeqIndex)
    (h : f_stat "REC_00000.WAV" ≠ FR_NO_FILE ∨
      ∃ i : Nat, i < 100 ∧ f_stat (rec_name i) = FR_OK) :
    scan_files f_stat st = full_scan f_stat st := by
  unfold scan_files
  by_cases h0 : f_stat "REC_00000.WAV" = FR_NO_FILE
  · rw [if_pos h0]
    rcases h with h | ⟨i, hi, hf⟩
    · exact absurd h0 h
    · cases hc : find_from (fun i => decide (f_stat (rec_name i) = FR_OK)) 100 0 with
      | none =>
        rw [find_from_eq_none_iff] at hc
        have := hc i (Nat.zero_le _) (by omega)
        simp [hf] at this
      | some o => exact full_scan_indep _ _ _
  · rw [if_neg h0]

theorem full_scan_of_oldest (f_stat : String → FRESULT) (st : SeqIndex) (o : Nat)
    (ho : o < MAX_FILES_SCAN) (hfirst : f_stat (rec_name o) = FR_OK)
    (hmin : ∀ j : Nat, j < o → f_stat (rec_name j) ≠ FR_OK) :
    full_scan f_stat st =
      { current_file_idx :=
          (find_from (fun i => decide (f_stat (rec_name i) = FR_NO_FILE))
            (MAX_FILES_SCAN - o) o).getD 0
        oldest_file_idx := o } := by
  have hc : find_from (fun i => decide (f_stat (rec_name i) = FR_OK)) MAX_FILES_SCAN 0 = some o := by
    rw [find_from_eq_some_iff]
    exact ⟨Nat.zero_le _, by omega, by simp [hfirst], fun j _ hj => by simpa using hmin j hj⟩
  rw [full_scan_eq, hc]

/-- C5: when some index below 100 holds a recording, `scan_files` leaves in
`oldest_file_idx` the least index whose probe answers `FR_OK`, and in
`current_file_idx` the least index from there on whose probe answers
`FR_NO_FILE`, provided that gap lies below 99,999; with recordings exactly at
2, 3, 5 and 7 the result is oldest 2, next 4. -/
theorem scan_files_oldest_next (f_stat : String → FRESULT) (st : SeqIndex)
    (hex : ∃ i : Nat, i < 100 ∧ f_stat (rec_name i) = FR_OK) :
    f_stat (rec_name (scan_files f_stat st).oldest_file_idx) = FR_OK ∧
    (∀ j : Nat, j < (scan_files f_stat st).oldest_file_idx → f_stat (rec_name j) ≠ FR_OK) ∧
    (∀ g : Nat, (scan_files f_stat st).oldest_file_idx ≤ g → g < MAX_FILES_SCAN →
      f_stat (rec_name g) = FR_NO_FILE →
      (∀ j : Nat, (scan_files f_stat st).oldest_file_idx ≤ j → j < g →
        f_stat (rec_name j) ≠ FR_NO_FILE) →
      (scan_files f_stat st).current_file_idx = g) ∧
    scan_files (files_at [2, 3, 5, 7]) st = { current_file_idx := 4, oldest_file_idx := 2 } := by
  have hM : MAX_FILES_SCAN = 99999 := rfl
  have hex2 : scan_files (files_at [2, 3, 5, 7]) st
      = { current_file_idx := 4, oldest_file_idx := 2 } := by
    rw [scan_files_indep _ st { current_file_idx := 0, oldest_file_idx := 0 }]
    decide
  refine ⟨?_, ?_, ?_, hex2⟩
  all_goals
    rw [scan_files_reaches_full_scan f_stat st (Or.inr hex), full_scan_eq]
    obtain ⟨i, hi, hf⟩ := hex
    cases hc : find_from (fun i => decide (f_stat (rec_name i) = FR_OK)) MAX_FILES_SCAN 0 with
    | none =>
      rw [find_from_eq_none_iff] at hc
      have := hc i (Nat.zero_le _) (by omega)
      simp [hf] at this
    | some o =>
      obtain ⟨_, h2, h3, h4⟩ := (find_from_eq_some_iff _ _ _ _).1 hc
      simp only
      first
        | exact of_decide_eq_true h3
        | (intro j hj
           have := h4 j (Nat.zero_le _) hj
           simpa using this)
        | (intro g hg1 hg2 hg3 hg4
           have hn : find_from (fun i => decide (f_stat (rec_name i) = FR_NO_FILE))
               (MAX_FILES_SCAN - o) o = some g := by
             rw [find_from_eq_some_iff]
             exact ⟨hg1, by omega, by simp [hg3], fun j hj1 hj2 => by simpa using hg4 j hj1 hj2⟩
           rw [hn]; rfl)

/-- Witness for `scan_files_oldest_next`: recordings at 2, 3, 5 and 7. -/
theorem scan_files_oldest_next_witness :
    files_at [2, 3, 5, 7] (rec_name (scan_files (files_at [2, 3, 5, 7])
      { current_file_idx := 9, oldest_file_idx := 9 }).oldest_file_idx) = FR_OK ∧
    (∀ j : Nat, j < (scan_files (files_at [2, 3, 5, 7])
        { current_file_idx := 9, oldest_file_idx := 9 }).oldest_file_idx →
      files_at [2, 3, 5, 7] (rec_name j) ≠ FR_OK) ∧
    (∀ g : Nat, (scan_files (files_at [2, 3, 5, 7])
        { current_file_idx := 9, oldest_file_idx := 9 }).oldest_file_idx ≤ g →
      g < MAX_FILES_SCAN → files_at [2, 3, 5, 7] (rec_name g) = FR_NO_FILE →
      (∀ j : Nat, (scan_files (files_at [2, 3, 5, 7])
          { current_file_idx := 9, oldest_file_idx := 9 }).oldest_file_idx ≤ j → j < g →
        files_at [2, 3, 5, 7] (rec_name j) ≠ FR_NO_FILE) →
      (scan_files (files_at [2, 3, 5, 7])
        { current_file_idx := 9, oldest_file_idx := 9 }).current_file_idx = g) ∧
    scan_files (files_at [2, 3, 5, 7]) { current_file_idx := 9, oldest_file_idx := 9 }
      = { current_file_idx := 4, oldest_file_idx := 2 } :=
  scan_files_oldest_next (files_at [2, 3, 5, 7]) { current_file_idx := 9, oldest_file_idx := 9 }
    ⟨2, by decide, by decide⟩

/-- C7: with the origin file absent, `scan_files` returns both counters at 0
when no index in 0..99 holds a file, whatever lies at higher indices, and
continues at the label `full_scan` when some index in 0..99 does.  With
recordings only at 100 and 101 the result is (0, 0), where the full scan
would have found oldest 100 and next 102. -/
theorem scan_files_origin_absent (f_stat : String → FRESULT) (st : SeqIndex)
    (h0 : f_stat "REC_00000.WAV" = FR_NO_FILE) :
    ((∀ i : Nat, i < 100 → f_stat (rec_name i) ≠ FR_OK) →
      scan_files f_stat st = { current_file_idx := 0, oldest_file_idx := 0 }) ∧
    ((∃ i : Nat, i < 100 ∧ f_stat (rec_name i) = FR_OK) →
      scan_files f_stat st
        = full_scan f_stat { current_file_idx := 0, oldest_file_idx := 0 }) ∧
    scan_files (files_at [100, 101]) st = { current_file_idx := 0, oldest_file_idx := 0 } ∧
    full_scan (files_at [100, 101]) st = { current_file_idx := 102, oldest_file_idx := 100 } := by
  have key : (∀ i : Nat, i < 100 → f_stat (rec_name i) ≠ FR_OK) →
      scan_files f_stat st = { current_file_idx := 0, oldest_file_idx := 0 } := by
    intro h
    have hc : find_from (fun i => decide (f_stat (rec_name i) = FR_OK)) 100 0 = none := by
      rw [find_from_eq_none_iff]
      intro j _ hj
      simpa using h j (by omega)
    unfold scan_files
    rw [if_pos h0]
    simp only [hc]
  refine ⟨key, ?_, ?_, ?_⟩
  · intro h
    rw [scan_files_reaches_full_scan f_stat st (Or.inr h)]
    exact full_scan_indep _ _ _
  · rw [scan_files_indep _ st { current_file_idx := 0, oldest_file_idx := 0 }]
    decide
  · rw [full_scan_indep _ st { current_file_idx := 0, oldest_file_idx := 0 }]
    decide

/-- Witness for `scan_files_origin_absent`: recordings only at 100 and 101
(quick return), and recordings only at 3 and 4 (fall back to the full scan). -/
theorem scan_files_origin_absent_witness :
    scan_files (files_at [100, 101]) { current_file_idx := 7, oldest_file_idx := 9 }
      = { current_file_idx := 0, oldest_file_idx := 0 } ∧
    scan_files (files_at [3, 4]) { current_file_idx := 7, oldest_file_idx := 9 }
      = full_scan (files_at [3, 4]) { current_file_idx := 0, oldest_file_idx := 0 } :=
  ⟨(scan_files_origin_absent (files_at [100, 101])
      { current_file_idx := 7, oldest_file_idx := 9 } (by decide)).1 (by decide),
   (scan_files_origin_absent (files_at [3, 4])
      { current_file_idx := 7, oldest_file_idx := 9 } (by decide)).2.1 ⟨3, by decide, by decide⟩⟩

/-- C8: when the full scan runs and finds its oldest file at `o`, and no index
from `o` up to `MAX_FILES_SCAN` (exclusive) is reported missing, `scan_files`
sets `current_file_idx` to 0 and leaves `oldest_file_idx` at `o`, the least
index holding a file; index 0 may itself hold a file (`o = 0`). -/
theorem scan_files_wraps_at_limit (f_stat : String → FRESULT) (st : SeqIndex) (o : Nat)
    (hrun : f_stat "REC_00000.WAV" ≠ FR_NO_FILE ∨
      ∃ i : Nat, i < 100 ∧ f_stat (rec_name i) = FR_OK)
    (ho : o < MAX_FILES_SCAN) (hfirst : f_stat (rec_name o) = FR_OK)
    (hmin : ∀ j : Nat, j < o → f_stat (rec_name j) ≠ FR_OK)
    (hfull : ∀ i : Nat, o ≤ i → i < MAX_FILES_SCAN → f_stat (rec_name i) ≠ FR_NO_FILE) :
    MAX_FILES_SCAN = 99999 ∧
    full_scan f_stat st = { current_file_idx := 0, oldest_file_idx := o } ∧
    scan_files f_stat st = { current_file_idx := 0, oldest_file_idx := o } := by
  have hn : find_from (fun i => decide (f_stat (rec_name i) = FR_NO_FILE))
      (MAX_FILES_SCAN - o) o = none := by
    rw [find_from_eq_none_iff]
    intro j hj1 hj2
    simpa using hfull j hj1 (by omega)
  have hfs := full_scan_of_oldest f_stat st o ho hfirst hmin
  rw [hn] at hfs
  exact ⟨rfl, hfs, by rw [scan_files_reaches_full_scan f_stat st hrun]; exact hfs⟩

/-- Witness for `scan_files_wraps_at_limit`: every probe answers `FR_OK`, so
index 0 holds a file and is also the next index. -/
theorem scan_files_wraps_at_limit_witness :
    MAX_FILES_SCAN = 99999 ∧
    full_scan (fun _ => FR_OK) { current_file_idx := 5, oldest_file_idx := 5 }
      = { current_file_idx := 0, oldest_file_idx := 0 } ∧
    scan_files (fun _ => FR_OK) { current_file_idx := 5, oldest_file_idx := 5 }
      = { current_file_idx := 0, oldest_file_idx := 0 } :=
  scan_files_wraps_at_limit (fun _ => FR_OK) { current_file_idx := 5, oldest_file_idx := 5 } 0
    (Or.inl (by decide)) (by decide) rfl (fun j hj => absurd hj (Nat.not_lt_zero j))
    (fun _ _ _ => by simp)

/-! ### Main-loop index advance -/

/-- C9 (the code departs from the claim): after the recording at index 99,999
the increment yields 100,000, not 0, which is above `MAX_FILES_SCAN`; the
next file is `REC_100000.WAV`, not `REC_00000.WAV`, and the counter goes on to
100,001. -/
theorem next_file_idx_no_wrap :
    next_file_idx 99999 = 100000 ∧
    next_file_idx 99999 ≠ 0 ∧
    MAX_FILES_SCAN < next_file_idx 99999 ∧
    recording_name (next_file_idx 99999) = "REC_100000.WAV" ∧
    recording_name (next_file_idx 99999) ≠ "REC_00000.WAV" ∧
    next_file_idx (next_file_idx 99999) = 100001 := by
  refine ⟨by decide, by decide, by decide, by decide, by decide, by decide⟩



/-! ### Space reclamation -/

theorem to_int32_congr (x y : Nat) (h : u32 x = u32 y) : to_int32 x = to_int32 y := by
  simp only [to_int32, h]

theorem to_int32_small (x : Nat) (h : x < 2 ^ 31) : to_int32 x = (x : Int) := by
  have : u32 x = x := by simp only [u32]; omega
  simp only [to_int32, this]
  rw [if_pos h]

theorem reclaim_loop_run (E : Engine) (K : Nat) :
    ∀ (fuel : Nat) (st : Reclaim), K ≤ fuel → st.free_mb + K = MIN_FREE_SPACE_MB →
      st.oldest_file_idx < 2 ^ 32 →
      (∀ j, j < K → E.unlink (st.unlinks.length + j) = FR_OK) →
      (∀ j, j < K → (E.getfree (st.queries + j)).1 = FR_OK ∧
        free_mb_of (u32 (E.getfree (st.queries + j)).2) E.csize = st.free_mb + j + 1) →
      ∃ r, reclaim_loop E fuel st = some r ∧
        r.oldest_file_idx = u32 (st.oldest_file_idx + K) ∧
        r.unlinks = st.unlinks ++
          (List.range K).map (fun j => (rec_name (to_int32 (st.oldest_file_idx + j)), FR_OK)) ∧
        r.queries = st.queries + K ∧ r.free_mb = MIN_FREE_SPACE_MB := by
  induction K with
  | zero =>
    intro fuel st _ hfree hold _ _
    have hnot : ¬ st.free_mb < MIN_FREE_SPACE_MB := by omega
    have hu : u32 (st.oldest_file_idx + 0) = st.oldest_file_idx := by
      simp only [u32]; omega
    refine ⟨st, ?_, hu.symm, by simp, rfl, by omega⟩
    cases fuel with
    | zero => rw [reclaim_loop, if_neg hnot]
    | succ f => rw [reclaim_loop, if_neg hnot]
  | succ K ih =>
    intro fuel st hfuel hfree hold hdel hq
    obtain ⟨f, rfl⟩ : ∃ f, fuel = f + 1 := ⟨fuel - 1, by omega⟩
    have hlt : st.free_mb < MIN_FREE_SPACE_MB := by omega
    have hd0 := hdel 0 (by omega)
    have hq0 := hq 0 (by omega)
    rw [Nat.add_zero] at hd0 hq0
    rw [reclaim_loop, if_pos hlt]
    simp only [hd0, if_true]
    obtain ⟨r, h1, h2, h3, h4, h5⟩ := ih f
      (requery E
        { st with unlinks := st.unlinks ++ [(rec_name (to_int32 st.oldest_file_idx), FR_OK)],
                  oldest_file_idx := u32 (st.oldest_file_idx + 1) })
      (by omega)
      (by simp only [requery, hq0.1, if_true, hq0.2]; omega)
      (by simp only [requery, u32]; omega)
      (by
        intro j hj
        simp only [requery, List.length_append, List.length_singleton]
        have := hdel (j + 1) (by omega)
        rw [show st.unlinks.length + 1 + j = st.unlinks.length + (j + 1) by omega]
        exact this)
      (by
        intro j hj
        simp only [requery, hq0.1, if_true, hq0.2]
        have := hq (j + 1) (by omega)
        rw [show st.queries + 1 + j = st.queries + (j + 1) by omega]
        exact ⟨this.1, by rw [this.2]; omega⟩)
    refine ⟨r, h1, ?_, ?_, ?_, h5⟩
    · rw [h2]; simp only [requery, u32]; omega
    · rw [h3]
      simp only [requery, List.append_assoc, List.singleton_append]
      rw [List.range_succ_eq_map, List.map_cons, List.map_map]
      congr 2
      apply List.map_congr_left
      intro j _
      simp only [Function.comp, Nat.add_zero]
      rw [to_int32_congr (u32 (st.oldest_file_idx + 1) + j) (st.oldest_file_idx + Nat.succ j)
        (by simp only [u32, Nat.succ_eq_add_one]; omega)]
    · rw [h4]; simp only [requery]; omega

/-- C10: let the first free-space query report `K` megabytes less than the
50 MB floor (or, for `K = 0`, any figure at or above the floor), let the query
made after `k` deletions report `k` megabytes more than the first, for
`k ≤ K`, and let the first `K` deletion attempts succeed.  Then for every loop
bound of at least `K` passes `manage_space` returns after exactly `K` deletion
attempts, all successful, at the names of the consecutive indices
`oldest .. oldest + K - 1`; it makes `K + 1` free-space queries, ends at or
above the floor, and advances `oldest_file_idx` by `K` (in 32-bit arithmetic,
so by exactly `K` when `oldest + K` stays in the positive `int` range that
`%05d` prints). -/
theorem manage_space_K_deletions (E : Engine) (K fuel oldest : Nat)
    (hold : oldest < 2 ^ 32) (hfuel : K ≤ fuel)
    (hstart : free_mb_of (u32 (E.getfree 0).2) E.csize + K = MIN_FREE_SPACE_MB ∨
      (K = 0 ∧ MIN_FREE_SPACE_MB ≤ free_mb_of (u32 (E.getfree 0).2) E.csize))
    (hdel : ∀ k, k < K → E.unlink k = FR_OK)
    (hfree : ∀ k, k ≤ K → (E.getfree k).1 = FR_OK ∧
      free_mb_of (u32 (E.getfree k).2) E.csize
        = free_mb_of (u32 (E.getfree 0).2) E.csize + k) :
    ∃ r, manage_space E fuel oldest = some r ∧
      r.unlinks = (List.range K).map (fun j => (rec_name (to_int32 (oldest + j)), FR_OK)) ∧
      deleted r = (List.range K).map (fun j => rec_name (to_int32 (oldest + j))) ∧
      r.unlinks.length = K ∧ (deleted r).length = K ∧
      r.oldest_file_idx = u32 (oldest + K) ∧
      r.free_mb = free_mb_of (u32 (E.getfree 0).2) E.csize + K ∧
      MIN_FREE_SPACE_MB ≤ r.free_mb ∧ r.queries = K + 1 ∧
      (oldest + K < 2 ^ 31 →
        r.oldest_file_idx = oldest + K ∧
        deleted r = (List.range K).map (fun j => rec_name ((oldest + j : Nat) : Int))) := by
  have h0 := hfree 0 (Nat.zero_le _)
  have hms : manage_space E fuel oldest = reclaim_loop E fuel
      { oldest_file_idx := oldest, fre_clust := u32 (E.getfree 0).2,
        free_mb := free_mb_of (u32 (E.getfree 0).2) E.csize, queries := 1, unlinks := [] } := by
    simp only [manage_space, h0.1, ne_eq, not_true_eq_false, if_false]
  rcases hstart with hs | ⟨hK, hs⟩
  · obtain ⟨r, h1, h2, h3, h4, h5⟩ := reclaim_loop_run E K fuel
      { oldest_file_idx := oldest, fre_clust := u32 (E.getfree 0).2,
        free_mb := free_mb_of (u32 (E.getfree 0).2) E.csize, queries := 1, unlinks := [] }
      hfuel hs hold
      (by intro j hj; simpa using hdel j hj)
      (by
        intro j hj
        have := hfree (1 + j) (by omega)
        exact ⟨this.1, by simp only; omega⟩)
    simp only [List.nil_append] at h2 h3 h4
    have hdl : deleted r = (List.range K).map (fun j => rec_name (to_int32 (oldest + j))) := by
      simp only [deleted, h3, List.filter_map, List.map_map]
      rw [List.filter_eq_self.2 (by intro a _; simp)]
      rfl
    refine ⟨r, by rw [hms]; exact h1, h3, hdl, by rw [h3]; simp, by rw [hdl]; simp, h2,
      by rw [h5]; omega, by rw [h5], by rw [h4]; omega, ?_⟩
    intro hsmall
    refine ⟨by rw [h2]; simp only [u32]; omega, ?_⟩
    rw [hdl]
    apply List.map_congr_left
    intro j hj
    rw [to_int32_small _ (by have := List.mem_range.1 hj; omega)]
  · subst hK
    have hidle : reclaim_loop E fuel
        { oldest_file_idx := oldest, fre_clust := u32 (E.getfree 0).2,
          free_mb := free_mb_of (u32 (E.getfree 0).2) E.csize, queries := 1, unlinks := [] }
        = some
        { oldest_file_idx := oldest, fre_clust := u32 (E.getfree 0).2,
          free_mb := free_mb_of (u32 (E.getfree 0).2) E.csize, queries := 1, unlinks := [] } := by
      have hn : ¬ free_mb_of (u32 (E.getfree 0).2) E.csize < MIN_FREE_SPACE_MB := by omega
      cases fuel with
      | zero => rw [reclaim_loop, if_neg hn]
      | succ f => rw [reclaim_loop, if_neg hn]
    have hr : manage_space E fuel oldest = some
        { oldest_file_idx := oldest, fre_clust := u32 (E.getfree 0).2,
          free_mb := free_mb_of (u32 (E.getfree 0).2) E.csize, queries := 1, unlinks := [] } := by
      rw [hms]; exact hidle
    exact ⟨_, hr, rfl, rfl, rfl, rfl, by simp only [u32]; omega, rfl, hs, rfl,
      fun _ => ⟨rfl, rfl⟩⟩

/-- Witness for `manage_space_K_deletions`: 47 megabytes free at the start
(one-sector clusters), one more after each deletion; three deletions from
index 5 remove `REC_00005.WAV` to `REC_00007.WAV` and leave the oldest index
at 8; and with 51 megabytes free at the start there is no deletion at all. -/
theorem manage_space_K_deletions_witness :
    (∃ r, manage_space
        { getfree := fun k => (FR_OK, (47 + k) * 2048), unlink := fun _ => FR_OK, csize := 1 }
        3 5 = some r ∧
      r.unlinks.length = 3 ∧
      deleted r = ["REC_00005.WAV", "REC_00006.WAV", "REC_00007.WAV"] ∧
      r.oldest_file_idx = 8 ∧ r.free_mb = 50 ∧ r.queries = 4) ∧
    (∃ r, manage_space
        { getfree := fun k => (FR_OK, (51 + k) * 2048), unlink := fun _ => FR_OK, csize := 1 }
        0 5 = some r ∧
      r.unlinks.length = 0 ∧ deleted r = [] ∧
      r.oldest_file_idx = 5 ∧ r.free_mb = 51 ∧ r.queries = 1) := by
  constructor
  · obtain ⟨r, h1, _, _, h4, _, _, h7, _, h8, h9⟩ := manage_space_K_deletions
      { getfree := fun k => (FR_OK, (47 + k) * 2048), unlink := fun _ => FR_OK, csize := 1 }
      3 3 5 (by decide) (by decide) (Or.inl (by decide)) (fun _ _ => rfl)
      (by
        intro k hk
        refine ⟨rfl, ?_⟩
        simp only [free_mb_of, u32]
        omega)
    obtain ⟨ha, hb⟩ := h9 (by decide)
    exact ⟨r, h1, h4, by rw [hb]; decide, ha, by rw [h7]; decide, h8⟩
  · obtain ⟨r, h1, _, h3, h4, _, _, h7, _, h8, h9⟩ := manage_space_K_deletions
      { getfree := fun k => (FR_OK, (51 + k) * 2048), unlink := fun _ => FR_OK, csize := 1 }
      0 0 5 (by decide) (by decide) (Or.inr ⟨rfl, by decide⟩) (fun _ _ => rfl)
      (by
        intro k hk
        refine ⟨rfl, ?_⟩
        simp only [free_mb_of, u32]
        omega)
    obtain ⟨ha, _⟩ := h9 (by decide)
    exact ⟨r, h1, h4, h3, ha, by rw [h7]; decide, h8⟩

/-! ### Reclamation: log structure, abort, missing files, termination -/

theorem reclaim_loop_idle (E : Engine) (fuel : Nat) (st : Reclaim)
    (h : ¬ st.free_mb < MIN_FREE_SPACE_MB) : reclaim_loop E fuel st = some st := by
  cases fuel with
  | zero => rw [reclaim_loop, if_neg h]
  | succ f => rw [reclaim_loop, if_neg h]

theorem reclaim_loop_abort (E : Engine) (fuel : Nat) (st : Reclaim)
    (h : st.free_mb < MIN_FREE_SPACE_MB) (he : advances (E.unlink st.unlinks.length) = false) :
    reclaim_loop E (fuel + 1) st =
      some { st with unlinks := st.unlinks ++
        [(rec_name (to_int32 st.oldest_file_idx), E.unlink st.unlinks.length)] } := by
  simp only [advances, Bool.or_eq_false_iff, decide_eq_false_iff_not] at he
  rw [reclaim_loop, if_pos h]
  simp only [he.1, he.2, if_false]

theorem reclaim_loop_pass (E : Engine) (fuel : Nat) (st : Reclaim)
    (h : st.free_mb < MIN_FREE_SPACE_MB) (he : advances (E.unlink st.unlinks.length) = true) :
    reclaim_loop E (fuel + 1) st =
      reclaim_loop E fuel (requery E
        { st with unlinks := st.unlinks ++
                    [(rec_name (to_int32 st.oldest_file_idx), E.unlink st.unlinks.length)],
                  oldest_file_idx := u32 (st.oldest_file_idx + 1) }) := by
  simp only [advances, Bool.or_eq_true, decide_eq_true_eq] at he
  rw [reclaim_loop, if_pos h]
  rcases he with he | he
  · simp only [he, if_true]
  · simp only [he]
    rw [if_neg (by decide), if_pos trivial]

theorem reclaim_loop_log (E : Engine) :
    ∀ (fuel : Nat) (st r : Reclaim), st.oldest_file_idx < 2 ^ 32 →
      reclaim_loop E fuel st = some r →
      ∃ pre tail : List (String × FRESULT),
        r.unlinks = st.unlinks ++ pre ++ tail ∧
        (∀ i u, pre[i]? = some u →
          u = (rec_name (to_int32 (st.oldest_file_idx + i)), E.unlink (st.unlinks.length + i)) ∧
          advances u.2 = true) ∧
        r.oldest_file_idx = u32 (st.oldest_file_idx + pre.length) ∧
        r.queries = st.queries + pre.length ∧
        ((tail = [] ∧ ¬ r.free_mb < MIN_FREE_SPACE_MB) ∨
          (tail = [(rec_name (to_int32 (st.oldest_file_idx + pre.length)),
              E.unlink (st.unlinks.length + pre.length))] ∧
            advances (E.unlink (st.unlinks.length + pre.length)) = false ∧
            r.free_mb < MIN_FREE_SPACE_MB)) := by
  intro fuel
  induction fuel with
  | zero =>
    intro st r hold h
    rw [reclaim_loop] at h
    split at h
    · cases h
    · rename_i hn
      cases h
      exact ⟨[], [], by simp, by simp, by simp only [List.length_nil, u32]; omega, rfl,
        Or.inl ⟨rfl, hn⟩⟩
  | succ f ih =>
    intro st r hold h
    by_cases hlow : st.free_mb < MIN_FREE_SPACE_MB
    · cases he : advances (E.unlink st.unlinks.length) with
      | false =>
        rw [reclaim_loop_abort E f st hlow he] at h
        cases h
        exact ⟨[], _, by simp, by simp, by simp only [List.length_nil, u32]; omega, rfl,
          Or.inr ⟨rfl, by simpa using he, hlow⟩⟩
      | true =>
        rw [reclaim_loop_pass E f st hlow he] at h
        obtain ⟨pre, tail, h1, h2, h3, h4, h5⟩ := ih _ r
          (by simp only [requery, u32]; omega) h
        simp only [requery, List.length_append, List.length_singleton] at h1 h2 h3 h4 h5
        refine ⟨(rec_name (to_int32 st.oldest_file_idx), E.unlink st.unlinks.length) :: pre,
          tail, by rw [h1]; simp, ?_, ?_, ?_, ?_⟩
        · intro i u hi
          cases i with
          | zero =>
            simp only [List.getElem?_cons_zero, Option.some.injEq] at hi
            subst hi
            exact ⟨by simp, he⟩
          | succ i =>
            simp only [List.getElem?_cons_succ] at hi
            obtain ⟨g1, g2⟩ := h2 i u hi
            refine ⟨?_, g2⟩
            rw [g1, to_int32_congr (u32 (st.oldest_file_idx + 1) + i) (st.oldest_file_idx + (i + 1))
              (by simp only [u32]; omega),
              show st.unlinks.length + 1 + i = st.unlinks.length + (i + 1) by omega]
        · rw [h3]; simp only [List.length_cons, u32]; omega
        · rw [h4]; simp only [List.length_cons]; omega
        · have e1 : to_int32 (u32 (st.oldest_file_idx + 1) + pre.length)
              = to_int32 (st.oldest_file_idx + (pre.length + 1)) :=
            to_int32_congr _ _ (by simp only [u32]; omega)
          have e2 : st.unlinks.length + 1 + pre.length = st.unlinks.length + (pre.length + 1) := by
            omega
          rw [e1, e2] at h5
          simpa only [List.length_cons] using h5
    · rw [reclaim_loop_idle E _ st hlow] at h
      cases h
      exact ⟨[], [], by simp, by simp, by simp only [List.length_nil, u32]; omega, rfl,
        Or.inl ⟨rfl, hlow⟩⟩

theorem manage_space_log (E : Engine) (fuel oldest : Nat) (r : Reclaim) (hold : oldest < 2 ^ 32)
    (h : manage_space E fuel oldest = some r) :
    ∃ pre tail : List (String × FRESULT),
      r.unlinks = pre ++ tail ∧
      (∀ i u, pre[i]? = some u →
        u = (rec_name (to_int32 (oldest + i)), E.unlink i) ∧ advances u.2 = true) ∧
      r.oldest_file_idx = u32 (oldest + pre.length) ∧
      r.queries = 1 + pre.length ∧
      (tail = [] ∨
        (tail = [(rec_name (to_int32 (oldest + pre.length)), E.unlink pre.length)] ∧
          advances (E.unlink pre.length) = false)) := by
  unfold manage_space at h
  by_cases h0 : (E.getfree 0).1 = FR_OK
  · simp only [h0, ne_eq, not_true_eq_false, if_false] at h
    obtain ⟨pre, tail, h1, h2, h3, h4, h5⟩ := reclaim_loop_log E fuel _ r hold h
    simp only [List.nil_append, List.length_nil, Nat.zero_add] at h1 h2 h3 h4 h5
    refine ⟨pre, tail, h1, h2, h3, h4, ?_⟩
    rcases h5 with h5 | h5
    · exact Or.inl h5.1
    · exact Or.inr ⟨h5.1, h5.2.1⟩
  · simp only [ne_eq, h0, not_false_eq_true, if_true, Option.some.injEq] at h
    subst h
    exact ⟨[], [], rfl, by simp, by simp only [List.length_nil, u32]; omega, rfl, Or.inl rfl⟩

theorem advancing_count (l : List (String × FRESULT))
    (h : ∀ u ∈ l, advances u.2 = true) :
    (l.filter (fun u => decide (u.2 = FR_OK))).length
      + (l.filter (fun u => decide (u.2 = FR_NO_FILE))).length = l.length := by
  induction l with
  | nil => rfl
  | cons a l ih =>
    have ha := h a (List.mem_cons_self _ _)
    have ih' := ih (fun u hu => h u (List.mem_cons_of_mem _ hu))
    simp only [advances, Bool.or_eq_true, decide_eq_true_eq] at ha
    rcases ha with ha | ha
    · simp only [List.filter_cons, ha, decide_True, if_true, List.length_cons]
      rw [if_neg (by decide)]
      omega
    · simp only [List.filter_cons, ha, decide_True, if_true, List.length_cons]
      rw [if_neg (by decide)]
      omega

theorem manage_space_counts (E : Engine) (fuel oldest : Nat) (r : Reclaim) (hold : oldest < 2 ^ 32)
    (h : manage_space E fuel oldest = some r) :
    r.queries = 1 + (deleted r).length + holes r ∧
    r.oldest_file_idx = u32 (oldest + (deleted r).length + holes r) := by
  obtain ⟨pre, tail, h1, h2, h3, h4, h5⟩ := manage_space_log E fuel oldest r hold h
  have hpre : ∀ u ∈ pre, advances u.2 = true := by
    intro u hu
    obtain ⟨i, hi⟩ := List.mem_iff_getElem?.1 hu
    exact (h2 i u hi).2
  have hc := advancing_count pre hpre
  have htail : (tail.filter (fun u => decide (u.2 = FR_OK))).length = 0 ∧
      (tail.filter (fun u => decide (u.2 = FR_NO_FILE))).length = 0 := by
    rcases h5 with h5 | ⟨h5, h6⟩
    · rw [h5]; exact ⟨rfl, rfl⟩
    · rw [h5]
      simp only [advances, Bool.or_eq_false_iff, decide_eq_false_iff_not] at h6
      simp [h6.1, h6.2]
  have hd : (deleted r).length + holes r = pre.length := by
    simp only [deleted, holes, List.length_map, h1, List.filter_append, List.length_append]
    omega
  exact ⟨by rw [h4]; omega, by rw [h3, Nat.add_assoc, hd]⟩

/-- C11: a deletion attempt that returns an error other than `FR_NO_FILE` ends
the loop at once, with `oldest_file_idx` and everything but the log of
attempts as before the attempt; in the log of a whole call such an attempt is
the last one, all earlier attempts advanced the index by one each, and the
failed name is the name of the final `oldest_file_idx`; when the first attempt
fails, nothing is deleted and `oldest_file_idx` is unchanged. -/
theorem manage_space_abort_on_error (E : Engine) (fuel oldest : Nat) (hold : oldest < 2 ^ 32) :
    (∀ st : Reclaim, st.free_mb < MIN_FREE_SPACE_MB →
      E.unlink st.unlinks.length ≠ FR_OK → E.unlink st.unlinks.length ≠ FR_NO_FILE →
      reclaim_loop E (fuel + 1) st =
        some { st with unlinks := st.unlinks ++
          [(rec_name (to_int32 st.oldest_file_idx), E.unlink st.unlinks.length)] }) ∧
    (∀ (r : Reclaim) (i : Nat) (u : String × FRESULT),
      manage_space E fuel oldest = some r → r.unlinks[i]? = some u →
      u.2 ≠ FR_OK → u.2 ≠ FR_NO_FILE →
      r.unlinks.length = i + 1 ∧ r.oldest_file_idx = u32 (oldest + i) ∧
      u.1 = rec_name (to_int32 r.oldest_file_idx) ∧
      (deleted r).length + holes r = i) ∧
    ((E.getfree 0).1 = FR_OK → free_mb_of (u32 (E.getfree 0).2) E.csize < MIN_FREE_SPACE_MB →
      E.unlink 0 ≠ FR_OK → E.unlink 0 ≠ FR_NO_FILE →
      ∃ r, manage_space E (fuel + 1) oldest = some r ∧
        r.unlinks = [(rec_name (to_int32 oldest), E.unlink 0)] ∧
        deleted r = [] ∧ r.oldest_file_idx = oldest) := by
  have hadv : ∀ fr : FRESULT, fr ≠ FR_OK → fr ≠ FR_NO_FILE → advances fr = false := by
    intro fr h1 h2; simp [advances, h1, h2]
  refine ⟨fun st hlow h1 h2 => reclaim_loop_abort E fuel st hlow (hadv _ h1 h2), ?_, ?_⟩
  · intro r i u hr hi h1 h2
    obtain ⟨pre, tail, g1, g2, g3, g4, g5⟩ := manage_space_log E fuel oldest r hold hr
    have hcnt := manage_space_counts E fuel oldest r hold hr
    have hnotpre : ¬ i < pre.length := by
      intro hlt
      have hp : pre[i]? = some u := by
        rw [g1, List.getElem?_append_left hlt] at hi; exact hi
      have := (g2 i u hp).2
      rw [hadv _ h1 h2] at this; cases this
    rcases g5 with g5 | ⟨g5, _⟩
    · rw [g1, g5, List.append_nil] at hi
      have := (List.getElem?_eq_some.1 hi).1
      exact absurd this hnotpre
    · rw [g1, g5] at hi
      have hlen : i < (pre ++ [(rec_name (to_int32 (oldest + pre.length)),
          E.unlink pre.length)]).length := (List.getElem?_eq_some.1 hi).1
      simp only [List.length_append, List.length_singleton] at hlen
      have hi' : i = pre.length := by omega
      subst hi'
      rw [List.getElem?_append_right (le_refl _)] at hi
      simp only [Nat.sub_self, List.getElem?_cons_zero, Option.some.injEq] at hi
      subst hi
      have hq := hcnt.1
      refine ⟨by rw [g1, g5]; simp, g3, ?_, by omega⟩
      rw [g3]
      exact congrArg rec_name (to_int32_congr _ _ (by simp only [u32]; omega))
  · intro h0 hlow h1 h2
    have hrun : manage_space E (fuel + 1) oldest = some
        { oldest_file_idx := oldest, fre_clust := u32 (E.getfree 0).2,
          free_mb := free_mb_of (u32 (E.getfree 0).2) E.csize, queries := 1,
          unlinks := [(rec_name (to_int32 oldest), E.unlink 0)] } := by
      simp only [manage_space, h0, ne_eq, not_true_eq_false, if_false]
      rw [reclaim_loop_abort E fuel
        { oldest_file_idx := oldest, fre_clust := u32 (E.getfree 0).2,
          free_mb := free_mb_of (u32 (E.getfree 0).2) E.csize, queries := 1, unlinks := [] }
        hlow (hadv (E.unlink 0) h1 h2)]
      rfl
    exact ⟨_, hrun, rfl, by simp [deleted, h1], rfl⟩

/-- Witness for `manage_space_abort_on_error`: no free space and a disk error
on the first deletion, from index 5. -/
theorem manage_space_abort_on_error_witness :
    ∃ r, manage_space engine_disk_error (2 + 1) 5 = some r ∧
      r.unlinks = [(rec_name (to_int32 5), engine_disk_error.unlink 0)] ∧
      deleted r = [] ∧ r.oldest_file_idx = 5 :=
  (manage_space_abort_on_error engine_disk_error 2 5 (by decide)).2.2 rfl (by decide)
    (by decide) (by decide)

/-- C12, as the code has it: a deletion answered `FR_NO_FILE` advances
`oldest_file_idx` by one (modulo `2 ^ 32`) and is followed by a free-space
query, the same as a successful deletion; a call with `d` successful deletions
and `h` missing files makes `1 + d + h` free-space queries. -/
theorem hole_skip_requeries (E : Engine) (fuel oldest : Nat) (hold : oldest < 2 ^ 32) :
    (∀ st : Reclaim, st.free_mb < MIN_FREE_SPACE_MB →
      E.unlink st.unlinks.length = FR_NO_FILE →
      reclaim_loop E (fuel + 1) st =
        reclaim_loop E fuel (requery E
          { st with unlinks := st.unlinks ++ [(rec_name (to_int32 st.oldest_file_idx), FR_NO_FILE)],
                    oldest_file_idx := u32 (st.oldest_file_idx + 1) }) ∧
      (requery E
        { st with unlinks := st.unlinks ++ [(rec_name (to_int32 st.oldest_file_idx), FR_NO_FILE)],
                  oldest_file_idx := u32 (st.oldest_file_idx + 1) }).queries = st.queries + 1 ∧
      (st.oldest_file_idx + 1 < 2 ^ 32 →
        (requery E
          { st with unlinks := st.unlinks ++ [(rec_name (to_int32 st.oldest_file_idx), FR_NO_FILE)],
                    oldest_file_idx := u32 (st.oldest_file_idx + 1) }).oldest_file_idx
          = st.oldest_file_idx + 1)) ∧
    (∀ r : Reclaim, manage_space E fuel oldest = some r →
      r.queries = 1 + (deleted r).length + holes r) := by
  refine ⟨fun st hlow he => ⟨?_, rfl, ?_⟩, fun r hr => (manage_space_counts E fuel oldest r hold hr).1⟩
  · have := reclaim_loop_pass E fuel st hlow (by simp [advances, he])
    rw [he] at this
    exact this
  · intro h
    simp only [requery, u32]
    omega

/-- Witness for `hole_skip_requeries`: one missing file, then enough space;
two queries for no deletion and one missing file. -/
theorem hole_skip_requeries_witness :
    ∃ r, manage_space engine_one_hole 5 0 = some r ∧
      r.queries = 1 + (deleted r).length + holes r ∧ r.queries = 2 ∧
      (deleted r).length = 0 ∧ holes r = 1 :=
  ⟨{ oldest_file_idx := 1, fre_clust := 102400, free_mb := 50, queries := 2,
     unlinks := [("REC_00000.WAV", FR_NO_FILE)] },
   by decide,
   (hole_skip_requeries engine_one_hole 5 0 (by decide)).2 _ (by decide),
   rfl, rfl, rfl⟩

/-- C12 as stated fails: with one missing file and no successful deletion the
call makes two free-space queries, not `1 + 0`. -/
theorem hole_skip_query_count_counterexample :
    manage_space engine_one_hole 5 0 =
      some { oldest_file_idx := 1, fre_clust := 102400, free_mb := 50, queries := 2,
             unlinks := [("REC_00000.WAV", FR_NO_FILE)] } ∧
    ¬ (∀ r : Reclaim, manage_space engine_one_hole 5 0 = some r →
        r.queries = 1 + (deleted r).length) := by
  have h : manage_space engine_one_hole 5 0 =
      some { oldest_file_idx := 1, fre_clust := 102400, free_mb := 50, queries := 2,
             unlinks := [("REC_00000.WAV", FR_NO_FILE)] } := by decide
  refine ⟨h, fun hall => ?_⟩
  have := hall _ h
  revert this
  decide

theorem scan_files_order (f_stat : String → FRESULT) (st : SeqIndex) :
    (scan_files f_stat st).oldest_file_idx ≤ (scan_files f_stat st).current_file_idx ∨
    (scan_files f_stat st).current_file_idx = 0 := by
  have hfull : ∀ st' : SeqIndex,
      (full_scan f_stat st').oldest_file_idx ≤ (full_scan f_stat st').current_file_idx ∨
      (full_scan f_stat st').current_file_idx = 0 := by
    intro st'
    rw [full_scan_eq]
    cases find_from (fun i => decide (f_stat (rec_name i) = FR_OK)) MAX_FILES_SCAN 0 with
    | none => exact Or.inr rfl
    | some o =>
      simp only
      cases hc : find_from (fun i => decide (f_stat (rec_name i) = FR_NO_FILE))
          (MAX_FILES_SCAN - o) o with
      | none => exact Or.inr rfl
      | some c =>
        exact Or.inl ((find_from_eq_some_iff _ _ _ _).1 hc).1
  unfold scan_files
  split
  · simp only
    split
    · exact hfull _
    · exact Or.inr rfl
  · exact hfull _

theorem reclaim_loop_diverges (E : Engine) (hadv : ∀ k, advances (E.unlink k) = true)
    (hfree : ∀ k, free_mb_of (u32 (E.getfree k).2) E.csize < MIN_FREE_SPACE_MB) :
    ∀ (fuel : Nat) (st : Reclaim), st.free_mb < MIN_FREE_SPACE_MB →
      free_mb_of st.fre_clust E.csize < MIN_FREE_SPACE_MB → reclaim_loop E fuel st = none := by
  intro fuel
  induction fuel with
  | zero => intro st h _; rw [reclaim_loop, if_pos h]
  | succ f ih =>
    intro st h hs
    rw [reclaim_loop_pass E f st h (hadv _)]
    have hq : free_mb_of (if (E.getfree st.queries).1 = FR_OK then u32 (E.getfree st.queries).2
        else st.fre_clust) E.csize < MIN_FREE_SPACE_MB := by
      split
      · exact hfree _
      · exact hs
    exact ih _ (by simpa only [requery] using hq) (by simpa only [requery] using hq)

/-- C14 (the code departs from the claim): on a volume whose free space stays
below the floor and where every deletion is answered `FR_NO_FILE`, the loop of
`manage_space` is still running after any number of passes, from any index. -/
theorem manage_space_spins_on_holes (fuel oldest : Nat) :
    manage_space engine_all_holes fuel oldest = none := by
  unfold manage_space
  rw [if_neg (by decide)]
  have h0 : free_mb_of (u32 0) 1 < MIN_FREE_SPACE_MB := by decide
  exact reclaim_loop_diverges engine_all_holes (fun _ => rfl) (fun _ => h0) fuel _ h0 h0

theorem toDigitsCore_step (fuel n : Nat) (ds : List Char) :
    Nat.toDigitsCore 10 (fuel + 1) n ds =
      if n / 10 = 0 then Nat.digitChar (n % 10) :: ds
      else Nat.toDigitsCore 10 fuel (n / 10) (Nat.digitChar (n % 10) :: ds) := by
  simp only [Nat.toDigitsCore]

theorem zero_pad_toDigitsCore (f n : Nat) (h : n < 100000) :
    zero_pad 5 (Nat.toDigitsCore 10 (f + 5) n []) =
      [Nat.digitChar (n / 10000 % 10), Nat.digitChar (n / 1000 % 10),
        Nat.digitChar (n / 100 % 10), Nat.digitChar (n / 10 % 10), Nat.digitChar (n % 10)] := by
  have z : Nat.digitChar 0 = '0' := rfl
  simp only [toDigitsCore_step]
  split_ifs with h1 h2 h3 h4 h5
  · rw [show n / 10000 % 10 = 0 by omega, show n / 1000 % 10 = 0 by omega,
      show n / 100 % 10 = 0 by omega, show n / 10 % 10 = 0 by omega, z]
    rfl
  · rw [show n / 10000 % 10 = 0 by omega, show n / 1000 % 10 = 0 by omega,
      show n / 100 % 10 = 0 by omega, z]
    rfl
  · rw [show n / 10000 % 10 = 0 by omega, show n / 1000 % 10 = 0 by omega,
      show n / 10 / 10 % 10 = n / 100 % 10 by omega, z]
    rfl
  · rw [show n / 10000 % 10 = 0 by omega,
      show n / 10 / 10 / 10 % 10 = n / 1000 % 10 by omega,
      show n / 10 / 10 % 10 = n / 100 % 10 by omega, z]
    rfl
  · rw [show n / 10 / 10 / 10 / 10 % 10 = n / 10000 % 10 by omega,
      show n / 10 / 10 / 10 % 10 = n / 1000 % 10 by omega,
      show n / 10 / 10 % 10 = n / 100 % 10 by omega]
    rfl
  · omega

theorem fmt_05d_small (n : Nat) (h : n < 100000) :
    fmt_05d (n : Int) =
      [Nat.digitChar (n / 10000 % 10), Nat.digitChar (n / 1000 % 10),
        Nat.digitChar (n / 100 % 10), Nat.digitChar (n / 10 % 10), Nat.digitChar (n % 10)] := by
  have hneg : ¬ ((n : Int) < 0) := by omega
  simp only [fmt_05d, if_neg hneg, Int.toNat_ofNat, Nat.toDigits]
  by_cases h4 : 4 ≤ n
  · rw [show n + 1 = (n - 4) + 5 by omega]
    exact zero_pad_toDigitsCore _ n h
  · have : n < 4 := by omega
    interval_cases n <;> rfl

theorem digitChar_decimal (d : Nat) (h : d < 10) :
    (Nat.digitChar d).isDigit = true ∧ (Nat.digitChar d).toNat - 48 = d := by
  interval_cases d <;> exact ⟨rfl, rfl⟩

theorem rec_name_small (n : Nat) (h : n < 100000) :
    rec_name (n : Int) = String.mk
      ['R', 'E', 'C', '_', Nat.digitChar (n / 10000 % 10), Nat.digitChar (n / 1000 % 10),
        Nat.digitChar (n / 100 % 10), Nat.digitChar (n / 10 % 10), Nat.digitChar (n % 10),
        '.', 'W', 'A', 'V'] := by
  unfold rec_name
  rw [fmt_05d_small n h]
  rfl

theorem spec_parse_rec_name (n : Nat) (h : n < 100000) :
    spec_parse_index (rec_name (n : Int)) = some n := by
  rw [rec_name_small n h]
  obtain ⟨a1, a2⟩ := digitChar_decimal (n / 10000 % 10) (Nat.mod_lt _ (by decide))
  obtain ⟨b1, b2⟩ := digitChar_decimal (n / 1000 % 10) (Nat.mod_lt _ (by decide))
  obtain ⟨c1, c2⟩ := digitChar_decimal (n / 100 % 10) (Nat.mod_lt _ (by decide))
  obtain ⟨d1, d2⟩ := digitChar_decimal (n / 10 % 10) (Nat.mod_lt _ (by decide))
  obtain ⟨e1, e2⟩ := digitChar_decimal (n % 10) (Nat.mod_lt _ (by decide))
  unfold spec_parse_index
  simp only [List.length_cons, List.length_nil, List.take, List.drop, List.all_cons, List.all_nil,
    List.foldl_cons, List.foldl_nil, a1, a2, b1, b2, c1, c2, d1, d2, e1, e2]
  rw [if_pos (by decide)]
  congr 1
  omega

/-- C15: for every index up to 99,999 the name built by `sprintf` with
`REC_%05d.WAV` is the 13-character string made of `REC_`, the five decimal
digits of the index (zero-padded) and `.WAV`, whether the index comes from a
loop variable or from one of the 32-bit counters; parsing the five digits gives
the index back, so distinct indices have distinct names; index 0 gives the
literal that `scan_files` probes first. -/
theorem rec_name_convention (i : Nat) (hi : i ≤ 99999) :
    rec_name (i : Int) = String.mk
      (['R', 'E', 'C', '_'] ++
        [Nat.digitChar (i / 10000 % 10), Nat.digitChar (i / 1000 % 10),
          Nat.digitChar (i / 100 % 10), Nat.digitChar (i / 10 % 10), Nat.digitChar (i % 10)] ++
        ['.', 'W', 'A', 'V']) ∧
    (rec_name (i : Int)).length = 13 ∧
    recording_name i = rec_name (i : Int) ∧
    spec_parse_index (rec_name (i : Int)) = some i ∧
    (∀ j : Nat, j ≤ 99999 → rec_name (j : Int) = rec_name (i : Int) → j = i) ∧
    rec_name 0 = "REC_00000.WAV" ∧ rec_name 99999 = "REC_99999.WAV" := by
  have h : i < 100000 := by omega
  refine ⟨rec_name_small i h, by rw [rec_name_small i h]; rfl, ?_, spec_parse_rec_name i h, ?_,
    by decide, by decide⟩
  · unfold recording_name
    rw [to_int32_small i (by omega)]
  · intro j hj hji
    have h1 := spec_parse_rec_name j (by omega)
    rw [hji, spec_parse_rec_name i h] at h1
    exact (Option.some.inj h1).symm

/-- Witness for `rec_name_convention`: index 123. -/
theorem rec_name_convention_witness :
    rec_name 123 = "REC_00123.WAV" ∧ spec_parse_index "REC_00123.WAV" = some 123 := by
  obtain ⟨h1, _, _, h4, _⟩ := rec_name_convention 123 (by decide)
  exact ⟨h1, by rw [show ("REC_00123.WAV" : String) = rec_name ((123 : Nat) : Int) from h1.symm]; exact h4⟩

theorem streaming_done (evs : List (Option Drain)) (st : Session)
    (h : ¬ st.current_file_bytes < max_file_bytes) : streaming evs st = some st := by
  cases evs with
  | nil => rw [streaming, if_neg h]
  | cons e es => cases e <;> rw [streaming, if_neg h]

theorem streaming_returns (evs : List (Option Drain)) (st : Session)
    (hbw : ∀ c ∈ reported evs, c ≤ BUFFER_SIZE * 3)
    (hlt : st.current_file_bytes < max_file_bytes)
    (hend : max_file_bytes ≤ st.current_file_bytes + (reported evs).sum) :
    ∃ st', streaming evs st = some st' := by
  have hm := max_file_bytes_eq
  have hB : BUFFER_SIZE * 3 = 12288 := by decide
  induction evs generalizing st with
  | nil => simp [reported] at hend; omega
  | cons ev evs ih =>
    cases ev with
    | none =>
      rw [streaming, if_pos hlt]
      exact ih st hbw hlt hend
    | some d =>
      have hd : d.bw ≤ BUFFER_SIZE * 3 := hbw d.bw (by simp [reported])
      have hu : u32 (st.current_file_bytes + d.bw) = st.current_file_bytes + d.bw := by
        simp only [u32]; omega
      rw [streaming, if_pos hlt]
      simp only [hu]
      by_cases hnext : st.current_file_bytes + d.bw < max_file_bytes
      · exact ih _ (fun c hc => hbw c (by simp [reported, hc])) hnext
          (by simp only [reported, List.sum_cons] at hend ⊢; omega)
      · exact ⟨_, streaming_done _ _ hnext⟩

theorem streaming_exit (evs : List (Option Drain)) (st st' : Session)
    (hbw : ∀ c ∈ reported evs, c ≤ BUFFER_SIZE * 3)
    (hlt : st.current_file_bytes < max_file_bytes)
    (h : streaming evs st = some st') :
    ∃ k, 1 ≤ k ∧ k ≤ (reported evs).length ∧
      st'.current_file_bytes = st.current_file_bytes + ((reported evs).take k).sum ∧
      st'.writes = st.writes + k ∧
      max_file_bytes ≤ st'.current_file_bytes ∧
      st'.current_file_bytes < max_file_bytes + BUFFER_SIZE * 3 ∧
      st.current_file_bytes + ((reported evs).take (k - 1)).sum < max_file_bytes := by
  have hm := max_file_bytes_eq
  have hB : BUFFER_SIZE * 3 = 12288 := by decide
  induction evs generalizing st with
  | nil => rw [streaming, if_pos hlt] at h; cases h
  | cons ev evs ih =>
    cases ev with
    | none =>
      rw [streaming, if_pos hlt] at h
      exact ih st hbw hlt h
    | some d =>
      have hd : d.bw ≤ BUFFER_SIZE * 3 := hbw d.bw (by simp [reported])
      have hu : u32 (st.current_file_bytes + d.bw) = st.current_file_bytes + d.bw := by
        simp only [u32]; omega
      rw [streaming, if_pos hlt] at h
      simp only [hu] at h
      by_cases hnext : st.current_file_bytes + d.bw < max_file_bytes
      · obtain ⟨k, k1, k2, k3, k4, k5, k6, k7⟩ :=
          ih _ (fun c hc => hbw c (by simp [reported, hc])) hnext h
        simp only at k3 k4 k7
        refine ⟨k + 1, by omega, by simp only [reported, List.length_cons]; omega, ?_, ?_, k5, k6, ?_⟩
        · rw [k3]; simp only [reported, List.take_succ_cons, List.sum_cons]; omega
        · rw [k4]; omega
        · obtain ⟨j, rfl⟩ : ∃ j, k = j + 1 := ⟨k - 1, by omega⟩
          simp only [Nat.add_sub_cancel] at k7 ⊢
          simp only [reported, List.take_succ_cons, List.sum_cons]
          omega
      · rw [streaming_done _ _ hnext] at h
        cases h
        refine ⟨1, le_refl _, by simp [reported], ?_, rfl, by simp only; omega,
          by simp only; omega, ?_⟩
        · simp [reported]
        · simpa using hlt

theorem streaming_all_full (n : Nat) (d : Drain) (st0 : Session) (hd : d.bw = 12288)
    (h0 : st0.current_file_bytes = 0) (hn : 352 ≤ n) :
    ∃ st', streaming (List.replicate n (some d)) st0 = some st' ∧
      st'.writes = st0.writes + 352 ∧ st'.current_file_bytes = 4325376 := by
  have hm := max_file_bytes_eq
  have hB : BUFFER_SIZE * 3 = 12288 := by decide
  have hrep := reported_replicate n d
  have hbw : ∀ c ∈ reported (List.replicate n (some d)), c ≤ BUFFER_SIZE * 3 := by
    rw [hrep]; intro c hc; rw [List.eq_of_mem_replicate hc]; omega
  have hsum : (reported (List.replicate n (some d))).sum = n * 12288 := by
    rw [hrep, List.sum_replicate, hd, smul_eq_mul]
  obtain ⟨st', hs⟩ := streaming_returns _ st0 hbw (by omega) (by omega)
  obtain ⟨k, k1, k2, k3, k4, k5, k6, k7⟩ := streaming_exit _ st0 st' hbw (by omega) hs
  rw [hrep, List.length_replicate] at k2
  rw [hrep, List.take_replicate, List.sum_replicate, hd, smul_eq_mul, Nat.min_eq_left k2] at k3
  rw [hrep, List.take_replicate, List.sum_replicate, hd, smul_eq_mul,
    Nat.min_eq_left (by omega)] at k7
  have hk : k = 352 := by omega
  subst hk
  exact ⟨st', hs, k4, by omega⟩

/-- C17: the target is `SAMPLE_RATE * CHANNELS * BYTES_PER_SAMPLE * REC_DURATION`
= 4,320,000 bytes.  With every write reporting at most 12,288 bytes, the loop
returns as soon as the reported counts add up to the target; at exit the
counter is the sum of the counts of the writes made, lies in
[4,320,000, 4,332,288), and was below the target before the last write.  When
every write is reported in full, a session makes exactly 352 writes and its
header carries the payload size 4,325,376. -/
theorem streaming_target (fil : FIL) (stage : List Nat) (evs : List (Option Drain))
    (hbw : ∀ c ∈ reported evs, c ≤ BUFFER_SIZE * 3) :
    max_file_bytes = SAMPLE_RATE * CHANNELS * BYTES_PER_SAMPLE * REC_DURATION ∧
    max_file_bytes = 4320000 ∧
    (max_file_bytes ≤ (reported evs).sum →
      ∃ st', streaming evs
        { fil := fil, stage_buffer := stage, current_file_bytes := 0, writes := 0 } = some st') ∧
    (∀ st', streaming evs
        { fil := fil, stage_buffer := stage, current_file_bytes := 0, writes := 0 } = some st' →
      4320000 ≤ st'.current_file_bytes ∧ st'.current_file_bytes < 4320000 + 12288 ∧
      1 ≤ st'.writes ∧ st'.writes ≤ (reported evs).length ∧
      st'.current_file_bytes = ((reported evs).take st'.writes).sum ∧
      ((reported evs).take (st'.writes - 1)).sum < 4320000) ∧
    (∀ (n bw0 : Nat) (samples : List Int), 352 ≤ n →
      ∃ st, recording_session stage bw0
          (List.replicate n (some { samples := samples, bw := 12288 })) 44 = some st ∧
        st.writes = 352 ∧ st.current_file_bytes = 4325376 ∧
        le_decode (slice (st.fil.data.take 44) 40 4) = 4325376) := by
  have hm := max_file_bytes_eq
  have hB : BUFFER_SIZE * 3 = 12288 := by decide
  refine ⟨by decide, hm, ?_, ?_, ?_⟩
  · intro hend
    exact streaming_returns evs _ hbw (by simp only; omega) (by simpa using hend)
  · intro st' hs
    obtain ⟨k, k1, k2, k3, k4, k5, k6, k7⟩ := streaming_exit evs _ st' hbw (by simp only; omega) hs
    simp only [Nat.zero_add] at k3 k4 k7
    subst k4
    exact ⟨by omega, by omega, k1, k2, k3, by omega⟩
  · intro n bw0 samples hn
    obtain ⟨st', hs, hw, hc⟩ := streaming_all_full n { samples := samples, bw := 12288 }
      { fil := write_wav_header { data := [], fptr := 0 } 0 bw0, stage_buffer := stage,
        current_file_bytes := 0, writes := 0 } rfl rfl hn
    refine ⟨{ st' with fil := write_wav_header (f_lseek st'.fil 0) st'.current_file_bytes 44 },
      by simp only [recording_session, hs], by simpa using hw, hc, ?_⟩
    simp only [header_rewrite_take, hc]
    rw [(image_fields 4325376).2.2.2.2]
    decide

/-- Witness for `streaming_target`: 400 buffers offered, every write reported
in full. -/
theorem streaming_target_witness :
    ∃ st, recording_session (List.replicate 12288 0) 44
        (List.replicate 400 (some { samples := List.replicate 4096 7, bw := 12288 })) 44
        = some st ∧
      st.writes = 352 ∧ st.current_file_bytes = 4325376 ∧
      le_decode (slice (st.fil.data.take 44) 40 4) = 4325376 :=
  (streaming_target { data := [], fptr := 0 } (List.replicate 12288 0)
    (List.replicate 400 (some { samples := List.replicate 4096 7, bw := 12288 }))
    (by
      rw [reported_replicate]
      intro c hc
      rw [List.eq_of_mem_replicate hc]
      decide)).2.2.2.2 400 44 (List.replicate 4096 7) (by decide)

theorem requery_failed (E : Engine) (st : Reclaim) (h : (E.getfree st.queries).1 ≠ FR_OK) :
    (requery E st).fre_clust = st.fre_clust ∧
    (requery E st).free_mb = free_mb_of st.fre_clust E.csize ∧
    (requery E st).oldest_file_idx = st.oldest_file_idx ∧
    (requery E st).unlinks = st.unlinks ∧
    (requery E st).queries = st.queries + 1 := by
  simp only [requery, if_neg h, and_self]

theorem reclaim_loop_stale (E : Engine) (hfail : ∀ k, 1 ≤ k → (E.getfree k).1 ≠ FR_OK) :
    ∀ (n fuel : Nat) (st : Reclaim), 1 ≤ st.queries → st.free_mb < MIN_FREE_SPACE_MB →
      st.free_mb = free_mb_of st.fre_clust E.csize → st.oldest_file_idx < 2 ^ 32 →
      (∀ k, k < n → advances (E.unlink (st.unlinks.length + k)) = true) →
      (fuel ≤ n → reclaim_loop E fuel st = none) ∧
      (advances (E.unlink (st.unlinks.length + n)) = false → n < fuel →
        ∃ r, reclaim_loop E fuel st = some r ∧
          r.unlinks = st.unlinks ++ (List.range (n + 1)).map
            (fun j => (rec_name (to_int32 (st.oldest_file_idx + j)),
              E.unlink (st.unlinks.length + j))) ∧
          r.oldest_file_idx = u32 (st.oldest_file_idx + n) ∧
          r.fre_clust = st.fre_clust ∧ r.free_mb = st.free_mb ∧
          r.queries = st.queries + n) := by
  intro n
  induction n with
  | zero =>
    intro fuel st _ hlow _ hold _
    refine ⟨fun hf => ?_, fun he hf => ?_⟩
    · obtain rfl : fuel = 0 := by omega
      rw [reclaim_loop, if_pos hlow]
    · obtain ⟨f, rfl⟩ : ∃ f, fuel = f + 1 := ⟨fuel - 1, by omega⟩
      rw [Nat.add_zero] at he
      rw [reclaim_loop_abort E f st hlow he]
      exact ⟨_, rfl, by simp [List.range_succ], by simp only [u32]; omega, rfl, rfl, rfl⟩
  | succ n ih =>
    intro fuel st hq hlow hfm hold hadv
    cases fuel with
    | zero =>
      exact ⟨fun _ => by rw [reclaim_loop, if_pos hlow], fun _ hf => absurd hf (Nat.not_lt_zero _)⟩
    | succ f =>
      have h0 := hadv 0 (by omega)
      rw [Nat.add_zero] at h0
      rw [reclaim_loop_pass E f st hlow h0]
      obtain ⟨q1, q2, q3, q4, q5⟩ := requery_failed E
        { st with unlinks := st.unlinks ++
                    [(rec_name (to_int32 st.oldest_file_idx), E.unlink st.unlinks.length)],
                  oldest_file_idx := u32 (st.oldest_file_idx + 1) }
        (hfail _ hq)
      simp only at q1 q2 q3 q4 q5
      obtain ⟨i1, i2⟩ := ih f _ (by rw [q5]; omega) (by rw [q2, ← hfm]; exact hlow)
        (by rw [q2, q1]) (by rw [q3]; simp only [u32]; omega)
        (by
          intro k hk
          rw [q4, List.length_append, List.length_singleton,
            show st.unlinks.length + 1 + k = st.unlinks.length + (k + 1) by omega]
          exact hadv (k + 1) (by omega))
      refine ⟨fun hf => i1 (by omega), fun he hf => ?_⟩
      rw [q1, q2, q3, q4, q5, List.length_append, List.length_singleton,
        show st.unlinks.length + 1 + n = st.unlinks.length + (n + 1) by omega] at i2
      obtain ⟨r, r1, r2, r3, r4, r5, r6⟩ := i2 he (by omega)
      refine ⟨r, r1, ?_, ?_, r4, by rw [r5, ← hfm], by rw [r6]; omega⟩
      · rw [r2, List.append_assoc, List.singleton_append,
          List.range_succ_eq_map (n + 1), List.map_cons, List.map_map]
        congr 2
        apply List.map_congr_left
        intro j _
        simp only [Function.comp, Nat.add_zero]
        rw [to_int32_congr (u32 (st.oldest_file_idx + 1) + j) (st.oldest_file_idx + Nat.succ j)
          (by simp only [u32, Nat.succ_eq_add_one]; omega),
          show st.unlinks.length + 1 + j = st.unlinks.length + Nat.succ j by omega]
      · rw [r3]; simp only [u32]; omega

/-- C18: a failed requery leaves `fre_clust` as it was and `free_mb` is
recomputed from that stale count, the call going on.  With a successful first
query below the floor and every later query failing, `manage_space` keeps
attempting deletions at successive indices while they are answered `FR_OK` or
`FR_NO_FILE` (it is still running after any such number of passes) and ends
only at a deletion error, with the count of the first query still in place.
When the first query fails, `manage_space` returns at once, with no deletion
attempt and `oldest_file_idx` unchanged. -/
theorem requery_failure_ignored (E : Engine) (fuel oldest n : Nat) (hold : oldest < 2 ^ 32) :
    (∀ st : Reclaim, (E.getfree st.queries).1 ≠ FR_OK →
      (requery E st).fre_clust = st.fre_clust ∧
      (requery E st).free_mb = free_mb_of st.fre_clust E.csize ∧
      (requery E st).oldest_file_idx = st.oldest_file_idx) ∧
    ((E.getfree 0).1 = FR_OK →
      free_mb_of (u32 (E.getfree 0).2) E.csize < MIN_FREE_SPACE_MB →
      (∀ k, 1 ≤ k → (E.getfree k).1 ≠ FR_OK) →
      (∀ k, k < n → E.unlink k = FR_OK ∨ E.unlink k = FR_NO_FILE) →
      (fuel ≤ n → manage_space E fuel oldest = none) ∧
      (E.unlink n ≠ FR_OK → E.unlink n ≠ FR_NO_FILE → n < fuel →
        ∃ r, manage_space E fuel oldest = some r ∧
          r.unlinks = (List.range (n + 1)).map
            (fun j => (rec_name (to_int32 (oldest + j)), E.unlink j)) ∧
          r.oldest_file_idx = u32 (oldest + n) ∧
          r.fre_clust = u32 (E.getfree 0).2 ∧
          r.free_mb = free_mb_of (u32 (E.getfree 0).2) E.csize ∧
          r.queries = 1 + n)) ∧
    ((E.getfree 0).1 ≠ FR_OK →
      ∃ r, manage_space E fuel oldest = some r ∧ r.unlinks = [] ∧
        r.oldest_file_idx = oldest ∧ r.queries = 1) := by
  refine ⟨fun st h => ?_, fun h0 hlow hfail hadv => ?_, fun h0 => ?_⟩
  · obtain ⟨q1, q2, q3, _, _⟩ := requery_failed E st h
    exact ⟨q1, q2, q3⟩
  · obtain ⟨s1, s2⟩ := reclaim_loop_stale E hfail n fuel
      { oldest_file_idx := oldest, fre_clust := u32 (E.getfree 0).2,
        free_mb := free_mb_of (u32 (E.getfree 0).2) E.csize, queries := 1, unlinks := [] }
      (le_refl _) hlow rfl hold
      (by
        intro k hk
        simp only [List.length_nil, Nat.zero_add, advances, Bool.or_eq_true, decide_eq_true_eq]
        exact hadv k hk)
    have hms : manage_space E fuel oldest = reclaim_loop E fuel
        { oldest_file_idx := oldest, fre_clust := u32 (E.getfree 0).2,
          free_mb := free_mb_of (u32 (E.getfree 0).2) E.csize, queries := 1, unlinks := [] } := by
      simp only [manage_space, h0, ne_eq, not_true_eq_false, if_false]
    rw [hms]
    refine ⟨s1, fun e1 e2 hf => ?_⟩
    simp only [List.length_nil, Nat.zero_add, List.nil_append] at s2
    exact s2 (by simp [advances, e1, e2]) hf
  · have hr : manage_space E fuel oldest = some
        { oldest_file_idx := oldest, fre_clust := 0, free_mb := 0, queries := 1, unlinks := [] } := by
      simp only [manage_space, ne_eq, h0, not_false_eq_true, if_true]
    exact ⟨_, hr, rfl, rfl, rfl⟩

/-- Witness for `requery_failure_ignored`: every requery fails, two deletions
succeed and the third is denied; the call ends there with three attempts at
indices 5, 6, 7 and the stale count 0. -/
theorem requery_failure_ignored_witness :
    ∃ r, manage_space engine_stale 9 5 = some r ∧
      r.unlinks = [("REC_00005.WAV", FR_OK), ("REC_00006.WAV", FR_OK),
        ("REC_00007.WAV", FR_DENIED)] ∧
      r.oldest_file_idx = 7 ∧ r.fre_clust = 0 ∧ r.free_mb = 0 ∧ r.queries = 3 := by
  obtain ⟨r, h1, h2, h3, h4, h5, h6⟩ :=
    ((requery_failure_ignored engine_stale 9 5 2 (by decide)).2.1 rfl (by decide)
      (by
        intro k hk
        have : k ≠ 0 := by omega
        simp [engine_stale, this])
      (by
        intro k hk
        have : k ≠ 2 := by omega
        simp [engine_stale, this])).2 (by decide) (by decide) (by decide)
  exact ⟨r, h1, by rw [h2]; decide, by rw [h3]; decide, by rw [h4]; decide, by rw [h5]; decide,
    by rw [h6]⟩

/-- C19: the figure compared with the floor is
`((fre_clust * csize) mod 2 ^ 32) / 2048`; when the product fits in 32 bits it
is the number of free sectors divided by 2048, rounded down, which is the free
space in whole megabytes for 512-byte sectors.  After a successful first query
`manage_space` attempts a deletion exactly when the figure is below 50: at 50
and above it returns with no attempt, below 50 it cannot return before an
attempt at `oldest_file_idx`.  Any free sector count from 49 MB up to just
under 50 MB gives 49, and 50 MB gives 50. -/
theorem free_mb_floor (E : Engine) (fuel oldest c s : Nat) :
    free_mb_of c s = (c * s % 2 ^ 32) / 2048 ∧
    (c * s < 2 ^ 32 →
      free_mb_of c s = c * s / 2048 ∧ free_mb_of c s = c * s * 512 / (1024 * 1024)) ∧
    ((E.getfree 0).1 = FR_OK →
      (MIN_FREE_SPACE_MB ≤ free_mb_of (u32 (E.getfree 0).2) E.csize →
        ∃ r, manage_space E fuel oldest = some r ∧ r.unlinks = [] ∧
          r.oldest_file_idx = oldest) ∧
      (free_mb_of (u32 (E.getfree 0).2) E.csize < MIN_FREE_SPACE_MB →
        manage_space E 0 oldest = none ∧
        ∀ r, manage_space E fuel oldest = some r →
          ∃ rest, r.unlinks = (rec_name (to_int32 oldest), E.unlink 0) :: rest)) ∧
    MIN_FREE_SPACE_MB = 50 ∧
    (∀ t, 49 * 2048 ≤ t → t < 50 * 2048 → free_mb_of t 1 = 49) ∧
    free_mb_of (50 * 2048) 1 = 50 := by
  refine ⟨rfl, fun h => ?_, fun h0 => ⟨fun hge => ?_, fun hlow => ⟨?_, fun r hr => ?_⟩⟩, rfl,
    fun t h1 h2 => ?_, by decide⟩
  · have e : free_mb_of c s = c * s / 2048 := by
      simp only [free_mb_of, u32]; rw [Nat.mod_eq_of_lt h]
    refine ⟨e, ?_⟩
    rw [e]; omega
  · have hr : manage_space E fuel oldest = some
        { oldest_file_idx := oldest, fre_clust := u32 (E.getfree 0).2,
          free_mb := free_mb_of (u32 (E.getfree 0).2) E.csize, queries := 1, unlinks := [] } := by
      simp only [manage_space, h0, ne_eq, not_true_eq_false, if_false]
      exact reclaim_loop_idle E fuel _ (by simpa using hge)
    exact ⟨_, hr, rfl, rfl⟩
  · simp only [manage_space, h0, ne_eq, not_true_eq_false, if_false]
    rw [reclaim_loop, if_pos hlow]
  · have hms : manage_space E fuel oldest = reclaim_loop E fuel
        { oldest_file_idx := oldest, fre_clust := u32 (E.getfree 0).2,
          free_mb := free_mb_of (u32 (E.getfree 0).2) E.csize, queries := 1, unlinks := [] } := by
      simp only [manage_space, h0, ne_eq, not_true_eq_false, if_false]
    rw [hms] at hr
    cases fuel with
    | zero => rw [reclaim_loop, if_pos hlow] at hr; cases hr
    | succ f =>
      cases he : advances (E.unlink 0) with
      | false =>
        rw [reclaim_loop_abort E f
          { oldest_file_idx := oldest, fre_clust := u32 (E.getfree 0).2,
            free_mb := free_mb_of (u32 (E.getfree 0).2) E.csize, queries := 1, unlinks := [] }
          hlow he] at hr
        cases hr
        exact ⟨[], rfl⟩
      | true =>
        rw [reclaim_loop_pass E f
          { oldest_file_idx := oldest, fre_clust := u32 (E.getfree 0).2,
            free_mb := free_mb_of (u32 (E.getfree 0).2) E.csize, queries := 1, unlinks := [] }
          hlow he] at hr
        obtain ⟨pre, tail, g1, _⟩ := reclaim_loop_log E f _ r
          (by simp only [requery, u32]; omega) hr
        exact ⟨pre ++ tail, by rw [g1]; simp [requery]⟩
  · simp only [free_mb_of, u32]
    omega

/-- Witness for `free_mb_floor`: 102,399 free one-sector clusters are 49 MB, and
with no free space the call does not return before an attempt. -/
theorem free_mb_floor_witness :
    (free_mb_of 102399 1 = 102399 * 1 / 2048 ∧
      free_mb_of 102399 1 = 102399 * 1 * 512 / (1024 * 1024)) ∧
    manage_space engine_disk_error 0 5 = none ∧
    ∃ r rest, manage_space engine_disk_error 3 5 = some r ∧
      r.unlinks = (rec_name (to_int32 5), engine_disk_error.unlink 0) :: rest := by
  obtain ⟨_, h2, h3, _⟩ := free_mb_floor engine_disk_error 3 5 102399 1
  obtain ⟨_, h5⟩ := h3 rfl
  obtain ⟨h6, h7⟩ := h5 (by decide)
  have hr : manage_space engine_disk_error 3 5 = some
      { oldest_file_idx := 5, fre_clust := 0, free_mb := 0, queries := 1,
        unlinks := [("REC_00005.WAV", FR_DISK_ERR)] } := by decide
  obtain ⟨rest, hrest⟩ := h7 _ hr
  exact ⟨h2 (by decide), h6, _, rest, hr, hrest⟩

/-! ### The flag hand-over under interleaving -/

theorem dma_handler_effect (a b : Bool) (m : Machine) :
    (dma_handler a b m).buffer_A_full = (m.buffer_A_full || a) ∧
    (dma_handler a b m).buffer_B_full = (m.buffer_B_full || b) ∧
    (dma_handler a b m).pc = m.pc ∧ (dma_handler a b m).hist = m.hist := by
  cases a <;> cases b <;> simp [dma_handler]

theorem handoff_inv_step (a : Action) (m : Machine) (h : handoff_inv m) :
    handoff_inv (step a m) := by
  obtain ⟨h1, h2, h3, h4⟩ := h
  cases a with
  | irq a b =>
    obtain ⟨_, _, e3, e4⟩ := dma_handler_effect a b m
    simp only [step, handoff_inv, e3, e4]
    exact ⟨h1, h2, h3, h4⟩
  | cpu =>
    simp only [step, main_step]
    cases hpc : m.pc with
    | test_A =>
      simp only
      split
      · refine ⟨?_, ?_, ?_, ?_⟩
        · intro p r i f hp
          cases p with
          | zero => simp at hp
          | succ p =>
            simp only [List.getElem?_cons_succ] at hp
            have := h1 p r i f hp
            refine ⟨this.1, ?_⟩
            rw [show p + 1 + i + 1 = (p + i + 1) + 1 by omega, List.getElem?_cons_succ]
            exact this.2
        · intro p r hp
          cases p with
          | zero => simp at hp
          | succ p =>
            simp only [List.getElem?_cons_succ] at hp ⊢
            exact h2 p r hp
        · intro r hr
          simp only [Pc.clear.injEq] at hr
          simp [hr]
        · intro r i hr
          simp at hr
      · refine ⟨h1, h2, ?_, ?_⟩ <;> intro r <;> simp
    | test_B =>
      simp only
      split
      · refine ⟨?_, ?_, ?_, ?_⟩
        · intro p r i f hp
          cases p with
          | zero => simp at hp
          | succ p =>
            simp only [List.getElem?_cons_succ] at hp
            have := h1 p r i f hp
            refine ⟨this.1, ?_⟩
            rw [show p + 1 + i + 1 = (p + i + 1) + 1 by omega, List.getElem?_cons_succ]
            exact this.2
        · intro p r hp
          cases p with
          | zero => simp at hp
          | succ p =>
            simp only [List.getElem?_cons_succ] at hp ⊢
            exact h2 p r hp
        · intro r hr
          simp only [Pc.clear.injEq] at hr
          simp [hr]
        · intro r i hr
          simp at hr
      · refine ⟨h1, h2, ?_, ?_⟩ <;> intro r <;> simp
    | clear r0 =>
      have hs := h3 r0 hpc
      cases r0 <;>
      · simp only
        refine ⟨?_, ?_, ?_, ?_⟩
        · intro p r i f hp
          cases p with
          | zero => simp at hp
          | succ p =>
            simp only [List.getElem?_cons_succ] at hp
            have := h1 p r i f hp
            refine ⟨this.1, ?_⟩
            rw [show p + 1 + i + 1 = (p + i + 1) + 1 by omega, List.getElem?_cons_succ]
            exact this.2
        · intro p r hp
          cases p with
          | zero =>
            simp only [List.getElem?_cons_zero, Option.some.injEq, Event.cleared.injEq] at hp
            subst hp
            simpa using hs
          | succ p =>
            simp only [List.getElem?_cons_succ] at hp ⊢
            exact h2 p r hp
        · intro r hr
          simp at hr
        · intro r i hr
          simp only [Pc.pack.injEq] at hr
          obtain ⟨rfl, rfl⟩ := hr
          simp
    | pack r0 i0 =>
      have hc := h4 r0 i0 hpc
      simp only
      split
      · rename_i hlt
        refine ⟨?_, ?_, ?_, ?_⟩
        · intro p r i f hp
          cases p with
          | zero =>
            simp only [List.getElem?_cons_zero, Option.some.injEq, Event.read.injEq] at hp
            obtain ⟨rfl, rfl, _⟩ := hp
            refine ⟨hlt, ?_⟩
            rw [show 0 + i0 + 1 = i0 + 1 by omega, List.getElem?_cons_succ]
            exact hc
          | succ p =>
            simp only [List.getElem?_cons_succ] at hp
            have := h1 p r i f hp
            refine ⟨this.1, ?_⟩
            rw [show p + 1 + i + 1 = (p + i + 1) + 1 by omega, List.getElem?_cons_succ]
            exact this.2
        · intro p r hp
          cases p with
          | zero => simp at hp
          | succ p =>
            simp only [List.getElem?_cons_succ] at hp ⊢
            exact h2 p r hp
        · intro r hr
          simp at hr
        · intro r i hr
          simp only [Pc.pack.injEq] at hr
          obtain ⟨rfl, rfl⟩ := hr
          rw [List.getElem?_cons_succ]
          exact hc
      · refine ⟨h1, h2, ?_, ?_⟩ <;> intro r <;> simp
    | store r0 =>
      simp only
      refine ⟨?_, ?_, ?_, ?_⟩
      · intro p r i f hp
        cases p with
        | zero => simp at hp
        | succ p =>
          simp only [List.getElem?_cons_succ] at hp
          have := h1 p r i f hp
          refine ⟨this.1, ?_⟩
          rw [show p + 1 + i + 1 = (p + i + 1) + 1 by omega, List.getElem?_cons_succ]
          exact this.2
      · intro p r hp
        cases p with
        | zero => simp at hp
        | succ p =>
          simp only [List.getElem?_cons_succ] at hp ⊢
          exact h2 p r hp
      · intro r hr
        simp at hr
      · intro r i hr
        simp at hr

theorem handoff_inv_run (acts : List Action) (m : Machine) (h : handoff_inv m) :
    handoff_inv (run acts m) := by
  induction acts generalizing m with
  | nil => exact h
  | cons a acts ih => exact ih (step a m) (handoff_inv_step a m h)

theorem handoff_inv_boot : handoff_inv boot := by
  refine ⟨?_, ?_, ?_, ?_⟩ <;> intros <;> simp_all [boot]

theorem main_step_flag (m : Machine) (r : Region) (h1 : m.flag r = true)
    (h2 : (main_step m).flag r = false) :
    m.pc = Pc.clear r ∧ ∀ r', r' ≠ r → (main_step m).flag r' = m.flag r' := by
  unfold main_step at h2 ⊢
  cases hpc : m.pc with
  | test_A =>
    rw [hpc] at h2
    simp only at h2
    split at h2 <;> cases r <;> simp_all [Machine.flag]
  | test_B =>
    rw [hpc] at h2
    simp only at h2
    split at h2 <;> cases r <;> simp_all [Machine.flag]
  | clear r0 =>
    rw [hpc] at h2
    cases r0 <;> cases r <;> simp_all [Machine.flag] <;>
      (intro r' hr'; cases r' <;> simp_all)
  | pack r0 i0 =>
    rw [hpc] at h2
    simp only at h2
    split at h2 <;> cases r <;> simp_all [Machine.flag]
  | store r0 =>
    rw [hpc] at h2
    cases r <;> simp_all [Machine.flag]

theorem main_step_seen (m : Machine) (r : Region)
    (h : (main_step m).hist = Event.seen r :: m.hist) : m.flag r = true := by
  unfold main_step at h
  cases hpc : m.pc with
  | test_A =>
    rw [hpc] at h
    simp only at h
    split at h
    · rename_i hf
      simp only [List.cons.injEq, Event.seen.injEq, and_true] at h
      subst h
      exact hf
    · exact absurd h (by simp)
  | test_B =>
    rw [hpc] at h
    simp only at h
    split at h
    · rename_i hf
      simp only [List.cons.injEq, Event.seen.injEq, and_true] at h
      subst h
      exact hf
    · exact absurd h (by simp)
  | clear r0 =>
    rw [hpc] at h
    cases r0 <;> simp at h
  | pack r0 i0 =>
    rw [hpc] at h
    simp only at h
    split at h
    · simp at h
    · exact absurd h (by simp)
  | store r0 =>
    rw [hpc] at h
    simp at h

end ValidMic
